import Mathlib

/-
Verification of the event-capture post-processing pipeline
(`post_processing/process_trace.py`, `post_processing/milestone_evaluation.py`,
`verification-pipeline/action_verifier.py`) against its natural-language
specification.  The Python dictionaries are embedded as Lean structures;
Python's in-place mutation of event dicts is modelled by explicit
index-tracking (see `postLog`).  Timestamps are integers, scores are
rationals (all score literals occurring in the source are decimal and the
comparisons performed never depend on binary floating-point rounding).
-/

/-- The `target` sub-dictionary of a captured event.  `bid` is accessed with
`event["target"]["bid"]` (a required key); `tag`, `value` and the `a11y`
entries are read with `.get(..., "")`, so a missing key is observationally
the empty string. -/
structure Target where
  bid : String
  tag : String
  value : String
  role : String
  name : String
  deriving DecidableEq, Repr

/-- An interaction event as consumed by `combine_and_map_events` and
`pair_closest_before`: the `target` key is present (the Python code indexes
`event["target"]` unconditionally).  `data` is read with `.get('data', '')`. -/
structure Event where
  type : String
  timestamp : Int
  url : String
  data : String
  target : Target
  deriving DecidableEq, Repr

/-- A raw trace entry as consumed by `split_observation_and_event_logs`:
only `entry['type']` is inspected, and the `target` key may be absent. -/
structure Entry where
  type : String
  timestamp : Int
  target : Option Target
  html : String
  deriving DecidableEq, Repr

/-- An HTML-capture observation as consumed by `pair_closest_before`. -/
structure Obs where
  timestamp : Int
  url : String
  html : String
  deriving DecidableEq, Repr

def defObs : Obs := ⟨0, "", ""⟩

/-- Python `str.lower()` restricted to its ASCII behaviour (the tags and
patterns occurring in the repository are ASCII). -/
def lowerStr (s : String) : String := String.mk (s.data.map Char.toLower)

/-- Python `str.upper()` restricted to its ASCII behaviour. -/
def upperStr (s : String) : String := String.mk (s.data.map Char.toUpper)

/-- `split_observation_and_event_logs` from `process_trace.py`: one pass
appending each entry to `html_log` when its type is `htmlCapture` and to
`event_log` otherwise. -/
def split_observation_and_event_logs (full_log : List Entry) : List Entry × List Entry :=
  full_log.foldl
    (fun acc entry =>
      if entry.type = "htmlCapture" then (acc.1 ++ [entry], acc.2)
      else (acc.1, acc.2 ++ [entry]))
    ([], [])

-- ===========================================================
-- Event Reducer: `combine_and_map_events` from `process_trace.py`
-- ===========================================================

/-- Lookup in an insertion-ordered association list (Python `dict.get`). -/
def alGet (m : List (String × List (Nat × Event))) (k : String) :
    Option (List (Nat × Event)) :=
  (m.find? (fun p => p.1 = k)).map (fun p => p.2)

/-- Python `dict` assignment `m[k] = v`: replace the binding if the key is
present, append it otherwise (iteration order is irrelevant here — the
second phase of the reducer iterates `bid_history`, not the dict). -/
def alSet (m : List (String × List (Nat × Event))) (k : String)
    (v : List (Nat × Event)) : List (String × List (Nat × Event)) :=
  if m.any (fun p => p.1 = k) then
    m.map (fun p => if p.1 = k then (k, v) else p)
  else m ++ [(k, v)]

/-- The mutable accumulator of the first loop of `combine_and_map_events`:
`prev_bids` (sliding window), `bid_events` (bid → events seen), and
`bid_history` (bids in first-seen order).  Events are paired with their
position in the input list so that the in-place `data` mutation performed by
the second loop can be located (see `postLog`). -/
structure RState where
  prevBids : List String
  bidEvents : List (String × List (Nat × Event))
  bidHistory : List String
  deriving Repr

/-- One iteration of the first loop of `combine_and_map_events`:
record first-seen order, reset the event group when the bid re-enters the
window and append otherwise, then evict the window front when it exceeds
two entries. -/
def rstep (s : RState) (ie : Nat × Event) : RState :=
  let bid := ie.2.target.bid
  let hist := if bid ∈ s.bidHistory then s.bidHistory else s.bidHistory ++ [bid]
  let pb := if bid ∈ s.prevBids then s.prevBids else s.prevBids ++ [bid]
  let be :=
    if bid ∈ s.prevBids then alSet s.bidEvents bid ((alGet s.bidEvents bid).getD [] ++ [ie])
    else alSet s.bidEvents bid [ie]
  let pb' := if pb.length > 2 then pb.tail else pb
  ⟨pb', be, hist⟩

/-- The accumulator state after the first loop of `combine_and_map_events`. -/
def runState (l : List Event) : RState :=
  l.enum.foldl rstep ⟨[], [], []⟩

/-- The input/textarea branch of the second loop: `data` accumulates the
concatenation of the `data` fields of the `input`-type events, `last_event`
is the last `input`-type event; the bid is skipped when the concatenation is
empty, and otherwise the last input event is emitted with its `data` field
overwritten by the concatenation. -/
def inputReduce (evs : List (Nat × Event)) : Option (Nat × Event) :=
  let inputs := evs.filter (fun ie => ie.2.type = "input")
  let d := (inputs.map (fun ie => ie.2.data)).foldl (fun a b => a ++ b) ""
  if d = "" then none
  else (inputs.getLast?).map (fun ie => (ie.1, { ie.2 with data := d }))

/-- The per-bid emission of the second loop of `combine_and_map_events`,
dispatching on the lower-cased tag of the bid's first recorded event. -/
def emitForBid (evs : List (Nat × Event)) : Option (Nat × Event) :=
  match evs.head? with
  | none => none
  | some e0 =>
    let tagName := lowerStr e0.2.target.tag
    if tagName = "input" ∨ tagName = "textarea" then
      inputReduce evs
    else if tagName = "select" then
      evs.reverse.find? (fun ie => ie.2.type = "click")
    else
      evs.reverse.find? (fun ie =>
        ie.2.type = "click" ∨ ie.2.type = "submit" ∨ ie.2.type = "pointerdown")

/-- The reduced events together with the input positions they came from. -/
def combineIndexed (l : List Event) : List (Nat × Event) :=
  (runState l).bidHistory.filterMap (fun bid =>
    match alGet (runState l).bidEvents bid with
    | none => none
    | some evs => emitForBid evs)

/-- `combine_and_map_events`: the list of reduced (key) events. -/
def combine_and_map_events (l : List Event) : List Event :=
  (combineIndexed l).map (fun ie => ie.2)

/-- The in-place mutations performed by the input/textarea branch
(`last_event["data"] = data`): for each input/textarea bid whose data
concatenation is non-empty, the input position of its last `input`-type
event together with the mutated record.  `mutForBid` is the per-bid
input/textarea gate (only that branch mutates); `mutationsOf` collects the
mutations of one run. -/
def mutForBid (evs : List (Nat × Event)) : Option (Nat × Event) :=
  match evs.head? with
  | none => none
  | some e0 =>
    let tagName := lowerStr e0.2.target.tag
    if tagName = "input" ∨ tagName = "textarea" then inputReduce evs
    else none

def mutationsOf (l : List Event) : List (Nat × Event) :=
  (runState l).bidHistory.filterMap (fun bid =>
    match alGet (runState l).bidEvents bid with
    | none => none
    | some evs => mutForBid evs)

/-- The state of the input event list after `combine_and_map_events` has
run: Python mutates the shared event dicts in place, so the caller's list
afterwards holds, at each mutated position, the event with its `data` field
overwritten. -/
def postLog (l : List Event) : List Event :=
  l.enum.map (fun ie =>
    match (mutationsOf l).find? (fun m => m.1 = ie.1) with
    | some m => m.2
    | none => ie.2)

/-- An event with its `data` field cleared — used to state which fields the
reducer's in-place mutation can touch. -/
def stripData (e : Event) : Event := { e with data := "" }

/-- First-seen order of a list of bids, stated independently of the reducer
state (the spec's "order in which each element was first interacted with"). -/
def firstSeenBids (bids : List String) : List String :=
  bids.foldl (fun acc b => if b ∈ acc then acc else acc ++ [b]) []

-- ===========================================================
-- Action Normalizer: `event_to_bgym_action`, `generate_bgym_actions`
-- ===========================================================

/-- The core action record produced by `event_to_bgym_action`: the branches
produce dicts with different keys (`option` only for select, `value` only
for fill), modelled with `Option` fields. -/
structure BAction where
  action : String
  data_bid : String
  value : Option String
  opt : Option String
  deriving DecidableEq, Repr

/-- `event_to_bgym_action` from `process_trace.py`: dispatch on the
upper-cased tag of the event's own target. -/
def event_to_bgym_action (e : Event) : BAction :=
  let tag := upperStr e.target.tag
  if tag = "SELECT" then ⟨"select_option", e.target.bid, none, some e.target.value⟩
  else if tag = "INPUT" ∨ tag = "TEXTAREA" then ⟨"fill", e.target.bid, some e.target.value, none⟩
  else ⟨"click", e.target.bid, none, none⟩

/-- One entry of the `actions` list built by `generate_bgym_actions`:
the normalized action plus `step` (1-based output index), timing, and the
accessibility metadata with empty-string defaults. -/
structure BgymStep where
  core : BAction
  step : Nat
  timestamp : Int
  url : String
  event_type : String
  role : String
  name : String
  tagName : String
  deriving DecidableEq, Repr

/-- The trace-level metadata copied into the output document. -/
structure TraceData where
  id : String
  title : String
  startUrl : String
  endUrl : String
  durationSeconds : Int
  deriving DecidableEq, Repr

/-- The document produced by `generate_bgym_actions`. -/
structure BgymOut where
  task_id : String
  task_title : String
  start_url : String
  end_url : String
  duration_seconds : Int
  total_actions : Nat
  actions : List BgymStep
  deriving DecidableEq, Repr

/-- The body of the `enumerate` loop of `generate_bgym_actions`. -/
def mkBgymStep (idx : Nat) (e : Event) : BgymStep :=
  { core := event_to_bgym_action e
    step := idx + 1
    timestamp := e.timestamp
    url := e.url
    event_type := e.type
    role := e.target.role
    name := e.target.name
    tagName := e.target.tag }

/-- `generate_bgym_actions` from `process_trace.py`. -/
def generate_bgym_actions (key_events : List Event) (td : TraceData) : BgymOut :=
  let steps := key_events.enum.map (fun ie => mkBgymStep ie.1 ie.2)
  { task_id := td.id
    task_title := td.title
    start_url := td.startUrl
    end_url := td.endUrl
    duration_seconds := td.durationSeconds
    total_actions := steps.length
    actions := steps }

-- ===========================================================
-- Observation Pairer: `pair_closest_before`
-- ===========================================================

/-- The inner `while` loop of `pair_closest_before`, with an explicit fuel
equal to the number of loop iterations still possible (each iteration
increments `j` and requires `j + 1 < len(observations)`, so `len - j`
bounds the loop exactly): advance `j` while the NEXT observation's
timestamp is still strictly below the event's. -/
def advanceGo (obs : List Obs) (t : Int) : Nat → Nat → Nat
  | j, 0 => j
  | j, fuel + 1 =>
    if j + 1 < obs.length ∧ (obs.getD (j + 1) defObs).timestamp < t then
      advanceGo obs t (j + 1) fuel
    else j

/-- The inner `while` loop of `pair_closest_before`. -/
def advance (obs : List Obs) (t : Int) (j : Nat) : Nat :=
  advanceGo obs t j (obs.length - j)

/-- The outer loop of `pair_closest_before`, carrying the persistent
observation pointer `j` (the `if j < len(observations)` guard only fails
when the observation list is empty). -/
def pairAux (obs : List Obs) (j : Nat) : List Event → List (Obs × Event)
  | [] => []
  | e :: es =>
    let j' := advance obs e.timestamp j
    if j' < obs.length then (obs.getD j' defObs, e) :: pairAux obs j' es
    else pairAux obs j' es

/-- `pair_closest_before` from `process_trace.py`. -/
def pair_closest_before (events : List Event) (observations : List Obs) :
    List (Obs × Event) :=
  pairAux observations 0 events

/-- The same loop, recording the observation index chosen for each paired
event instead of the observation itself. -/
def pairIdxAux (obs : List Obs) (j : Nat) : List Event → List Nat
  | [] => []
  | e :: es =>
    let j' := advance obs e.timestamp j
    if j' < obs.length then j' :: pairIdxAux obs j' es
    else pairIdxAux obs j' es

/-- The sequence of observation indices chosen by the Pairer. -/
def pairIndices (events : List Event) (observations : List Obs) : List Nat :=
  pairIdxAux observations 0 events

/-- Number of observations with timestamp strictly below `t`. -/
def cntLt (obs : List Obs) (t : Int) : Nat :=
  (obs.filter (fun o => o.timestamp < t)).length

-- ===========================================================
-- Action-string grammar: `parse_action` (milestone_evaluation.py) and the
-- code generation of `ActionVerifier.verify_action_code_generation`
-- ===========================================================

/-- The characters the three regexes single out, written via code points:
double quote (34), single quote (39), newline (10), right parenthesis (41),
comma (44), space (32), backslash (92). -/
def dqC : Char := Char.ofNat 34

def sqC : Char := Char.ofNat 39

def nlC : Char := Char.ofNat 10

def rparC : Char := Char.ofNat 41

def commaC : Char := Char.ofNat 44

def spaceC : Char := Char.ofNat 32

def bslashC : Char := Char.ofNat 92

/-- The regex character class `['\"]`. -/
def isQuoteC (c : Char) : Bool := c = dqC ∨ c = sqC

/-- Python `str.strip()` on a character list (leading and trailing
whitespace removed), as applied by `parse_action` before matching. -/
def trimChars (l : List Char) : List Char :=
  ((l.dropWhile Char.isWhitespace).reverse.dropWhile Char.isWhitespace).reverse

/-- The optional quote `['\"]?` of the regexes.  Consuming a leading quote
greedily is deterministic in every context it is used: the following group
or literal can never start with a quote character, so the empty alternative
cannot rescue a failed match. -/
def dropOptQuote (l : List Char) : List Char :=
  match l with
  | [] => []
  | c :: rest => if isQuoteC c then rest else l

/-- Greedy match with backtracking for a `+`-group: try the group length
`i` from the longest candidate downward, as a backtracking regex engine
does, returning the first success. -/
def searchDesc {α : Type} (f : Nat → Option α) : Nat → Option α
  | 0 => none
  | i + 1 =>
    match f (i + 1) with
    | some r => some r
    | none => searchDesc f i

/-- Match a literal prefix (`re.match` anchors at the start only). -/
def matchLit (pat : List Char) (l : List Char) : Option (List Char) :=
  if l.take pat.length = pat then some (l.drop pat.length) else none

/-- `['\"]?([^'\"]+)['\"]?` followed by a continuation: the group is a
nonempty quote-free prefix, longest first; candidates are bounded by the
maximal quote-free run. -/
def matchG1 {α : Type} (l : List Char) (kont : List Char → Option α) :
    Option (List Char × α) :=
  let l1 := dropOptQuote l
  let run := l1.takeWhile (fun c => ¬ isQuoteC c)
  searchDesc (fun i =>
    (kont (dropOptQuote (l1.drop i))).map (fun a => (l1.take i, a))) run.length

/-- The tail `\)` of the click regex (trailing input is allowed, as with
`re.match`). -/
def clickKont (r : List Char) : Option Unit :=
  match r with
  | c :: _ => if c = rparC then some () else none
  | [] => none

/-- `(.+)['\"]\)`: the group is a nonempty newline-free prefix (`.` does
not match a newline), longest first, followed by a quote and `)`. -/
def g2 (u : List Char) : Option (List Char) :=
  searchDesc (fun j =>
    match u.drop j with
    | q :: r :: _ => if isQuoteC q ∧ r = rparC then some (u.take j) else none
    | _ => none)
    (u.takeWhile (fun c => c ≠ nlC)).length

/-- `['\"]?,\s*['\"](.+)['\"]\)`: what follows the first group in the fill
and select_option regexes (`\s*` is deterministic here: a whitespace run
followed by a mandatory quote). -/
def fillKont (r1 : List Char) : Option (List Char) :=
  match r1 with
  | c :: r2 =>
    if c = commaC then
      match r2.dropWhile Char.isWhitespace with
      | q :: r4 => if isQuoteC q then g2 r4 else none
      | [] => none
    else none
  | [] => none

/-- `re.match(r"click\(['\"]?([^'\"]+)['\"]?\)", s)`, returning group 1. -/
def clickParse (s : List Char) : Option (List Char) :=
  (matchLit ("click(".data) s).bind (fun t =>
    (matchG1 t clickKont).map (fun pa => pa.1))

/-- `re.match(r"fill\(['\"]?([^'\"]+)['\"]?,\s*['\"](.+)['\"]\)", s)`,
returning groups 1 and 2. -/
def fillParse (s : List Char) : Option (List Char × List Char) :=
  (matchLit ("fill(".data) s).bind (fun t => matchG1 t fillKont)

/-- The select_option regex, identical to fill apart from the literal. -/
def selectParse (s : List Char) : Option (List Char × List Char) :=
  (matchLit ("select_option(".data) s).bind (fun t => matchG1 t fillKont)

/-- The parsed-action record returned by `parse_action` (`type`, `bid`,
`value` keys; `value` is `None` for click; unknown keeps the raw string). -/
inductive ParsedAction where
  | click (bid : String)
  | fill (bid : String) (value : String)
  | selectOption (bid : String) (value : String)
  | unknown (raw : String)
  deriving DecidableEq, Repr

/-- `parse_action` from `milestone_evaluation.py`: strip, then try the fill
regex, the select_option regex and the click regex in that order. -/
def parse_action (s : String) : ParsedAction :=
  let t := trimChars s.data
  match fillParse t with
  | some bv => .fill (String.mk bv.1) (String.mk bv.2)
  | none =>
    match selectParse t with
    | some bv => .selectOption (String.mk bv.1) (String.mk bv.2)
    | none =>
      match clickParse t with
      | some b => .click (String.mk b)
      | none => .unknown (String.mk t)

/-- Python `value.replace('"', '\\"')` (used by the verifier's code
generation), at the character level: each double quote becomes
backslash-quote. -/
def replaceDQ (l : List Char) : List Char :=
  l.bind (fun c => if c = dqC then [bslashC, dqC] else [c])

def clickChars (b : List Char) : List Char :=
  "click(".data ++ [dqC] ++ b ++ [dqC, rparC]

def fillChars (b v : List Char) : List Char :=
  "fill(".data ++ [dqC] ++ b ++ [dqC, commaC, spaceC, dqC] ++ v ++ [dqC, rparC]

def selectChars (b v : List Char) : List Char :=
  "select_option(".data ++ [dqC] ++ b ++ [dqC, commaC, spaceC, dqC] ++ v ++ [dqC, rparC]

/-- The textual encoding generated by
`ActionVerifier.verify_action_code_generation`: `click("<bid>")`,
`fill("<bid>", "<value>")`, `select_option("<bid>", "<option>")`, with
double quotes in the value escaped; no encoding exists for an unknown
action. -/
def encodeAction : ParsedAction → Option String
  | .click b => some (String.mk (clickChars b.data))
  | .fill b v => some (String.mk (fillChars b.data (replaceDQ v.data)))
  | .selectOption b v => some (String.mk (selectChars b.data (replaceDQ v.data)))
  | .unknown _ => none

/-- A well-formed `<bid>`: nonempty and quote-free (a quote inside the bid
would escape its delimiters in the grammar). -/
def okBidChars (b : List Char) : Prop := b ≠ [] ∧ ∀ c ∈ b, ¬ (isQuoteC c = true)

/-- A well-formed `<value>`/`<option>`: nonempty, quote-free and on one
line. -/
def okValChars (v : List Char) : Prop :=
  v ≠ [] ∧ (∀ c ∈ v, ¬ (isQuoteC c = true)) ∧ ∀ c ∈ v, c ≠ nlC

/-- A well-formed action string of one of the three supported kinds, per
the spec's grammar. -/
def WfActionString (s : String) : Prop :=
  (∃ b, okBidChars b ∧ s = String.mk (clickChars b))
  ∨ (∃ b v, okBidChars b ∧ okValChars v ∧ s = String.mk (fillChars b v))
  ∨ (∃ b v, okBidChars b ∧ okValChars v ∧ s = String.mk (selectChars b v))

-- ===========================================================
-- Milestone Scorer: `action_matches_milestone`, `evaluate_trajectory`
-- ===========================================================

/-- A milestone record; optional keys (`value`, `value_pattern`) are
`Option`s, scores and weights are rationals (every literal in the source is
decimal and no comparison performed depends on binary rounding). -/
structure Milestone where
  mid : Nat
  name : String
  action : String
  target_type : String
  value : Option String
  value_pattern : Option String
  weight : Rat
  deriving DecidableEq, Repr

def defMilestone : Milestone := ⟨0, "", "", "", none, none, 1⟩

/-- `action["type"]` of a parsed action. -/
def typeOf : ParsedAction → String
  | .click _ => "click"
  | .fill _ _ => "fill"
  | .selectOption _ _ => "select_option"
  | .unknown _ => "unknown"

/-- `action.get("value", "")`: the click dict stores `None` under `value`,
the unknown dict has no such key and `.get` is never reached for it. -/
def valueOf : ParsedAction → Option String
  | .click _ => none
  | .fill _ v => some v
  | .selectOption _ v => some v
  | .unknown _ => none

/-- Python truthiness of the optional value (`None` and `""` are falsy). -/
def truthy : Option String → Bool
  | none => false
  | some v => v ≠ ""

def listStarts : List Char → List Char → Bool
  | [], _ => true
  | _ :: _, [] => false
  | a :: as, b :: bs => a = b && listStarts as bs

def listInfixB (needle : List Char) : List Char → Bool
  | [] => listStarts needle []
  | l@(_ :: rest) => listStarts needle l || listInfixB needle rest

/-- Python `needle in hay` on strings: contiguous substring containment. -/
def strContains (needle hay : String) : Bool := listInfixB needle.data hay.data

def pipeC : Char := Char.ofNat 124

def splitOnChar (sep : Char) : List Char → List (List Char)
  | [] => [[]]
  | c :: rest =>
    let r := splitOnChar sep rest
    if c = sep then [] :: r
    else
      match r with
      | [] => [[c]]
      | g :: gs => (c :: g) :: gs

/-- Python `milestone["value"].split("|")` (the separator used in the
source is the single character `|`). -/
def splitPatterns (s : String) : List String :=
  (splitOnChar pipeC s.data).map String.mk

/-- `action_matches_milestone` from `milestone_evaluation.py`, mirroring
the early-return chain: kind-compatibility gates, the fill branch with
optional `value_pattern` (1.0 / 0.5 / 0.7), the click-with-value branch
(case-insensitive match against `|`-separated patterns, else (False, 0)),
the generic click (0.3), else (False, 0). -/
def action_matches_milestone (a : ParsedAction) (m : Milestone) : Bool × Rat :=
  let actionType := typeOf a
  let v := valueOf a
  if m.action = "fill" ∧ actionType ≠ "fill" ∧ actionType ≠ "select_option" then
    (false, 0)
  else if m.action = "click" ∧ actionType ≠ "click" ∧ actionType ≠ "select_option" then
    (false, 0)
  else if m.action = "fill" ∧ (actionType = "fill" ∨ actionType = "select_option")
      ∧ truthy v then
    match m.value_pattern with
    | some pat => if strContains pat (v.getD "") then (true, 1) else (true, mkRat 1 2)
    | none => (true, mkRat 7 10)
  else if m.action = "click" ∧ m.value.isSome then
    if truthy v ∧ (splitPatterns (m.value.getD "")).any
        (fun pat => strContains (lowerStr pat) (lowerStr (v.getD ""))) then
      (true, 1)
    else (false, 0)
  else if m.action = "click" ∧ actionType = "click" then (true, mkRat 3 10)
  else (false, 0)

/-- One iteration of the best-still-unmatched-milestone scan of
`evaluate_trajectory`: skip matched indices, keep the candidate only on a
strictly greater score (`score > best_score`), starting from
`(best_milestone_idx, best_score) = (-1, 0.0)`. -/
def sbStep (a : ParsedAction) (matched : List Nat) (acc : Int × Rat)
    (im : Nat × Milestone) : Int × Rat :=
  if im.1 ∈ matched then acc
  else
    let r := action_matches_milestone a im.2
    if r.1 ∧ r.2 > acc.2 then ((im.1 : Int), r.2) else acc

/-- The inner milestone scan of `evaluate_trajectory` for one action. -/
def selectBest (a : ParsedAction) (ms : List Milestone) (matched : List Nat) :
    Int × Rat :=
  ms.enum.foldl (sbStep a matched) (-1, 0)

/-- One accepted match of `evaluate_trajectory`. -/
structure Assign where
  mIdx : Nat
  aIdx : Nat
  score : Rat
  deriving DecidableEq, Repr

/-- The mutable state of `evaluate_trajectory`: `matched_milestones`,
`matched_action_indices` (sets used only for membership, kept here as the
lists of insertions), the accepted matches, the accumulated
`partial_score`, and `completed_milestones`. -/
structure EvalSt where
  matchedM : List Nat
  matchedA : List Nat
  assigns : List Assign
  scoreSum : Rat
  completedCount : Nat
  deriving DecidableEq, Repr

def isUnknown : ParsedAction → Bool
  | .unknown _ => true
  | _ => false

/-- One iteration of the action loop of `evaluate_trajectory`: skip
unknown actions; otherwise accept the best still-unmatched milestone when
`best_milestone_idx >= 0 and best_score > 0.3`. -/
def evalStep (ms : List Milestone) (st : EvalSt) (ia : Nat × ParsedAction) :
    EvalSt :=
  if isUnknown ia.2 then st
  else
    let r := selectBest ia.2 ms st.matchedM
    if 0 ≤ r.1 ∧ r.2 > mkRat 3 10 then
      { matchedM := st.matchedM ++ [r.1.toNat]
        matchedA := st.matchedA ++ [ia.1]
        assigns := st.assigns ++ [⟨r.1.toNat, ia.1, r.2⟩]
        scoreSum := st.scoreSum + r.2 * (ms.getD r.1.toNat defMilestone).weight
        completedCount := st.completedCount + (if r.2 ≥ mkRat 7 10 then 1 else 0) }
    else st

/-- The matching core of `evaluate_trajectory` from
`milestone_evaluation.py`: parse all actions, then greedily assign each to
the single best-scoring still-unmatched milestone. -/
def evaluate_trajectory (actions : List String) (ms : List Milestone) : EvalSt :=
  ((actions.map parse_action).enum).foldl (evalStep ms) ⟨[], [], [], 0, 0⟩

-- ===========================================================
-- Claim-side (spec-worded) helper definitions and example inputs
-- ===========================================================

/-- The `input`-type events of a list (the events whose value the spec's
input/textarea rule ranges over). -/
def inputsOf (l : List Event) : List Event :=
  l.filter (fun e => e.type = "input")

/-- Concatenation of the `data` fields of the `input`-type events, exactly
as accumulated by the input/textarea branch of the reducer. -/
def dataConcat (l : List Event) : String :=
  ((inputsOf l).map (fun e => e.data)).foldl (fun a b => a ++ b) ""

/-- Follows the spec's words for C1: "the most recent non-empty value
carried by any `input`-type event" of the list. -/
def specLastNonEmptyValue (l : List Event) : Option String :=
  ((l.filter (fun e => e.type = "input" ∧ e.target.value ≠ "")).getLast?).map
    (fun e => e.target.value)

/-- Follows the spec's words for C3: "the latest observation whose
timestamp does not exceed the action's timestamp". -/
def specLatestAtMost (obs : List Obs) (t : Int) : Option Obs :=
  (obs.filter (fun o => o.timestamp ≤ t)).getLast?

/-- Two consecutive `input` events on one bid whose second event carries an
empty target value: the recorded field value was erased by the second
keystroke, but the earlier non-empty value "a" was observed. -/
def exInputPair : List Event :=
  [⟨"input", 1, "", "a", ⟨"a1", "input", "a", "", ""⟩⟩,
   ⟨"input", 2, "", "x", ⟨"a1", "input", "", "", ""⟩⟩]

/-- The spec's last-value-wins example: three `input` events on one bid
whose field values are "a", "ab", "abc" (per-keystroke deltas "a","b","c"). -/
def exAbc : List Event :=
  [⟨"input", 1, "", "a", ⟨"a1", "input", "a", "", ""⟩⟩,
   ⟨"input", 2, "", "b", ⟨"a1", "input", "ab", "", ""⟩⟩,
   ⟨"input", 3, "", "c", ⟨"a1", "input", "abc", "", ""⟩⟩]

-- ===========================================================
-- Lemmas and theorems
-- ===========================================================

lemma split_foldl_acc (l : List Entry) (h e : List Entry) :
    l.foldl
      (fun acc entry =>
        if entry.type = "htmlCapture" then (acc.1 ++ [entry], acc.2)
        else (acc.1, acc.2 ++ [entry]))
      (h, e)
      = (h ++ l.filter (fun x => x.type = "htmlCapture"),
         e ++ l.filter (fun x => x.type ≠ "htmlCapture")) := by
  induction l generalizing h e with
  | nil => simp
  | cons a l ih =>
    by_cases ha : a.type = "htmlCapture"
    · simp [List.foldl_cons, ha, ih]
    · simp [List.foldl_cons, ha, ih]

/-- C2 (amended): the Splitter puts an entry into the observations list iff
its type is `htmlCapture`, and every other entry goes into the interactions
list regardless of whether it carries a target; nothing is dropped.  An
empty input yields two empty lists (the `l = []` instance). -/
theorem c2_split_partition_amended (l : List Entry) :
    split_observation_and_event_logs l
      = (l.filter (fun x => x.type = "htmlCapture"),
         l.filter (fun x => x.type ≠ "htmlCapture")) := by
  simpa [split_observation_and_event_logs] using split_foldl_acc l [] []

lemma alGet_some_mem {m : List (String × List (Nat × Event))} {k : String}
    {g : List (Nat × Event)} (h : alGet m k = some g) : (k, g) ∈ m := by
  unfold alGet at h
  cases hf : m.find? (fun p => p.1 = k) with
  | none => rw [hf] at h; simp at h
  | some p =>
    rw [hf] at h
    simp at h
    have hm := List.mem_of_find?_eq_some hf
    have hk := List.find?_some hf
    simp at hk
    have : (k, g) = p := by
      cases p with
      | mk a b => simp at hk h; simp [hk, h]
    rw [this]; exact hm

lemma alSet_mem {m : List (String × List (Nat × Event))} {k0 k : String}
    {v g : List (Nat × Event)} (h : (k, g) ∈ alSet m k0 v) :
    (k, g) ∈ m ∨ (k = k0 ∧ g = v) := by
  unfold alSet at h
  by_cases ha : m.any (fun p => p.1 = k0)
  · rw [if_pos ha] at h
    obtain ⟨p, hp, hpe⟩ := List.mem_map.mp h
    by_cases hk : p.1 = k0
    · rw [if_pos hk] at hpe
      right
      injection hpe with h1 h2
      exact ⟨h1.symm, h2.symm⟩
    · rw [if_neg hk] at hpe
      left; rw [← hpe]; exact hp
  · rw [if_neg ha] at h
    rcases List.mem_append.mp h with h1 | h1
    · left; exact h1
    · right
      simp at h1
      exact ⟨h1.1, h1.2⟩

lemma rstep_groups (Q : String → (Nat × Event) → Prop) (s : RState)
    (ie : Nat × Event) (hie : Q ie.2.target.bid ie)
    (hs : ∀ k g, (k, g) ∈ s.bidEvents → ∀ p ∈ g, Q k p) :
    ∀ k g, (k, g) ∈ (rstep s ie).bidEvents → ∀ p ∈ g, Q k p := by
  intro k g hmem p hp
  have hbe : (rstep s ie).bidEvents
      = (if ie.2.target.bid ∈ s.prevBids then
          alSet s.bidEvents ie.2.target.bid
            ((alGet s.bidEvents ie.2.target.bid).getD [] ++ [ie])
        else alSet s.bidEvents ie.2.target.bid [ie]) := rfl
  rw [hbe] at hmem
  by_cases hpb : ie.2.target.bid ∈ s.prevBids
  · rw [if_pos hpb] at hmem
    rcases alSet_mem hmem with hold | ⟨hk, hg⟩
    · exact hs k g hold p hp
    · subst hk; subst hg
      rcases List.mem_append.mp hp with hpg | hpg
      · cases hget : alGet s.bidEvents ie.2.target.bid with
        | none => rw [hget] at hpg; simp at hpg
        | some g0 =>
          rw [hget] at hpg
          exact hs _ g0 (alGet_some_mem hget) p hpg
      · simp at hpg; rw [hpg]; exact hie
  · rw [if_neg hpb] at hmem
    rcases alSet_mem hmem with hold | ⟨hk, hg⟩
    · exact hs k g hold p hp
    · subst hk; subst hg
      simp at hp; rw [hp]; exact hie

lemma foldl_rstep_groups (Q : String → (Nat × Event) → Prop) :
    ∀ (es : List (Nat × Event)) (s : RState),
      (∀ ie ∈ es, Q ie.2.target.bid ie) →
      (∀ k g, (k, g) ∈ s.bidEvents → ∀ p ∈ g, Q k p) →
      ∀ k g, (k, g) ∈ (es.foldl rstep s).bidEvents → ∀ p ∈ g, Q k p := by
  intro es
  induction es with
  | nil => intro s _ hs; exact hs
  | cons ie es ih =>
    intro s hes hs
    rw [List.foldl_cons]
    exact ih (rstep s ie) (fun x hx => hes x (List.mem_cons_of_mem _ hx))
      (rstep_groups Q s ie (hes ie (List.mem_cons_self _ _)) hs)

lemma runState_groups_bid (l : List Event) :
    ∀ k g, (k, g) ∈ (runState l).bidEvents → ∀ p ∈ g, p.2.target.bid = k := by
  exact foldl_rstep_groups (fun k p => p.2.target.bid = k) l.enum ⟨[], [], []⟩
    (fun _ _ => rfl) (by intro k g h; simp [RState.bidEvents] at h)

lemma runState_groups_enum (l : List Event) :
    ∀ k g, (k, g) ∈ (runState l).bidEvents → ∀ p ∈ g, p ∈ l.enum := by
  exact foldl_rstep_groups (fun _ p => p ∈ l.enum) l.enum ⟨[], [], []⟩
    (fun _ h => h) (by intro k g h; simp [RState.bidEvents] at h)

lemma foldl_rstep_history :
    ∀ (es : List (Nat × Event)) (s : RState),
      (es.foldl rstep s).bidHistory
        = (es.map (fun ie => ie.2.target.bid)).foldl
            (fun acc b => if b ∈ acc then acc else acc ++ [b]) s.bidHistory := by
  intro es
  induction es with
  | nil => intro s; rfl
  | cons ie es ih =>
    intro s
    rw [List.foldl_cons, ih, List.map_cons, List.foldl_cons]
    rfl

lemma runState_history (l : List Event) :
    (runState l).bidHistory = firstSeenBids (l.map (fun e => e.target.bid)) := by
  unfold runState firstSeenBids
  rw [foldl_rstep_history]
  have : l.enum.map (fun ie => ie.2.target.bid)
      = l.map (fun e => e.target.bid) := by
    have h2 : (fun ie : Nat × Event => ie.2.target.bid)
        = (fun e : Event => e.target.bid) ∘ Prod.snd := rfl
    rw [h2, ← List.map_map, List.enum_map_snd]
  rw [this]

lemma firstSeen_aux_nodup :
    ∀ (bids : List String) (acc : List String), acc.Nodup →
      (bids.foldl (fun acc b => if b ∈ acc then acc else acc ++ [b]) acc).Nodup := by
  intro bids
  induction bids with
  | nil => intro acc h; exact h
  | cons b bids ih =>
    intro acc h
    rw [List.foldl_cons]
    by_cases hb : b ∈ acc
    · rw [if_pos hb]; exact ih acc h
    · rw [if_neg hb]
      refine ih _ ?_
      simp [List.nodup_append, h, hb]

lemma firstSeenBids_nodup (bids : List String) : (firstSeenBids bids).Nodup :=
  firstSeen_aux_nodup bids [] List.nodup_nil

lemma inputReduce_src {evs : List (Nat × Event)} {ie : Nat × Event}
    (h : inputReduce evs = some ie) :
    ∃ p ∈ evs, ie.1 = p.1 ∧ stripData ie.2 = stripData p.2 := by
  unfold inputReduce at h
  by_cases hd : ((evs.filter (fun ie => ie.2.type = "input")).map
      (fun ie => ie.2.data)).foldl (fun a b => a ++ b) "" = ""
  · rw [if_pos hd] at h; simp at h
  · rw [if_neg hd] at h
    cases hl : (evs.filter (fun ie => ie.2.type = "input")).getLast? with
    | none => rw [hl] at h; simp at h
    | some q =>
      rw [hl] at h
      simp at h
      refine ⟨q, List.mem_of_mem_filter (List.mem_of_mem_getLast? hl), ?_, ?_⟩
      · rw [← h]
      · rw [← h]; simp [stripData]

lemma emitForBid_src {evs : List (Nat × Event)} {ie : Nat × Event}
    (h : emitForBid evs = some ie) :
    ∃ p ∈ evs, ie.1 = p.1 ∧ stripData ie.2 = stripData p.2 := by
  unfold emitForBid at h
  cases h0 : evs.head? with
  | none => rw [h0] at h; simp at h
  | some e0 =>
    rw [h0] at h
    simp only at h
    by_cases h1 : lowerStr e0.2.target.tag = "input" ∨ lowerStr e0.2.target.tag = "textarea"
    · rw [if_pos h1] at h
      exact inputReduce_src h
    · rw [if_neg h1] at h
      by_cases h2 : lowerStr e0.2.target.tag = "select"
      · rw [if_pos h2] at h
        have hm := List.mem_of_find?_eq_some h
        exact ⟨ie, List.mem_reverse.mp hm, rfl, rfl⟩
      · rw [if_neg h2] at h
        have hm := List.mem_of_find?_eq_some h
        exact ⟨ie, List.mem_reverse.mp hm, rfl, rfl⟩

lemma stripData_target {a b : Event} (h : stripData a = stripData b) :
    a.target = b.target := by
  have := congrArg Event.target h
  simpa [stripData] using this

lemma filterMap_bid_sublist :
    ∀ (hist : List String) (f : String → Option (Nat × Event)),
      (∀ b x, f b = some x → x.2.target.bid = b) →
      List.Sublist ((hist.filterMap f).map (fun ie => ie.2.target.bid)) hist := by
  intro hist
  induction hist with
  | nil => intro f _; simp
  | cons b t ih =>
    intro f hf
    cases hfb : f b with
    | none =>
      rw [List.filterMap_cons_none hfb]
      exact (ih f hf).cons b
    | some x =>
      rw [List.filterMap_cons_some hfb]
      rw [List.map_cons, hf b x hfb]
      exact (ih f hf).cons₂ b

/-- C5: the Reducer emits at most one event per distinct bid (the projected
bid list is duplicate-free), and the emitted events appear in the
first-seen order of their bids (the projected bid list is a sublist of the
first-seen bid order of the input). -/
theorem c5_one_per_bid_first_seen_order (l : List Event) :
    ((combine_and_map_events l).map (fun e => e.target.bid)).Nodup
    ∧ List.Sublist ((combine_and_map_events l).map (fun e => e.target.bid))
        (firstSeenBids (l.map (fun e => e.target.bid))) := by
  have hf : ∀ b x, (match alGet (runState l).bidEvents b with
      | none => none
      | some evs => emitForBid evs) = some x → x.2.target.bid = b := by
    intro b x hx
    cases hget : alGet (runState l).bidEvents b with
    | none => rw [hget] at hx; simp at hx
    | some evs =>
      rw [hget] at hx
      obtain ⟨p, hp, _, hstrip⟩ := emitForBid_src hx
      have hb := runState_groups_bid l b evs (alGet_some_mem hget) p hp
      rw [stripData_target hstrip, hb]
  have hmapeq : (combine_and_map_events l).map (fun e => e.target.bid)
      = ((combineIndexed l).map (fun ie => ie.2.target.bid)) := by
    simp [combine_and_map_events, List.map_map]
  have hsub := filterMap_bid_sublist (runState l).bidHistory _ hf
  have hsub2 : List.Sublist ((combine_and_map_events l).map (fun e => e.target.bid))
      (firstSeenBids (l.map (fun e => e.target.bid))) := by
    rw [hmapeq, ← runState_history l]
    exact hsub
  exact ⟨hsub2.nodup (firstSeenBids_nodup _), hsub2⟩

lemma mem_enumFrom_get? {α : Type} :
    ∀ (l : List α) (k : Nat) (p : Nat × α), p ∈ l.enumFrom k →
      k ≤ p.1 ∧ l.get? (p.1 - k) = some p.2 := by
  intro l
  induction l with
  | nil => intro k p h; simp [List.enumFrom] at h
  | cons a t ih =>
    intro k p h
    rw [List.enumFrom] at h
    rcases List.mem_cons.mp h with h1 | h1
    · rw [h1]; simp
    · obtain ⟨hk, hget⟩ := ih (k + 1) p h1
      refine ⟨Nat.le_of_succ_le hk, ?_⟩
      have hsub : p.1 - k = (p.1 - (k + 1)) + 1 := by omega
      rw [hsub, List.get?_cons_succ]
      exact hget

lemma mem_enum_get? {α : Type} (l : List α) (p : Nat × α) (h : p ∈ l.enum) :
    l.get? p.1 = some p.2 := by
  have := mem_enumFrom_get? l 0 p h
  simpa using this.2

lemma mutationsOf_spec (l : List Event) :
    ∀ m ∈ mutationsOf l, ∃ p ∈ l.enum, m.1 = p.1 ∧ stripData m.2 = stripData p.2 := by
  intro m hm
  unfold mutationsOf at hm
  obtain ⟨bid, _, hf⟩ := List.mem_filterMap.mp hm
  cases hget : alGet (runState l).bidEvents bid with
  | none => rw [hget] at hf; simp at hf
  | some evs =>
    simp only [hget] at hf
    unfold mutForBid at hf
    cases h0 : evs.head? with
    | none => rw [h0] at hf; simp at hf
    | some e0 =>
      rw [h0] at hf
      simp only at hf
      by_cases htag : lowerStr e0.2.target.tag = "input"
          ∨ lowerStr e0.2.target.tag = "textarea"
      · rw [if_pos htag] at hf
        obtain ⟨p, hp, h1, h2⟩ := inputReduce_src hf
        exact ⟨p, runState_groups_enum l bid evs (alGet_some_mem hget) p hp, h1, h2⟩
      · rw [if_neg htag] at hf; simp at hf

lemma postLog_length (l : List Event) : (postLog l).length = l.length := by
  simp [postLog]

lemma enum_get_pair {α : Type} (l : List α) (i : Nat) (h1 : i < l.enum.length)
    (h2 : i < l.length) : l.enum.get ⟨i, h1⟩ = (i, l.get ⟨i, h2⟩) := by
  have hmem : l.enum.get ⟨i, h1⟩ ∈ l.enum := l.enum.get_mem _ _
  have hfst : (l.enum.get ⟨i, h1⟩).1 = i := by
    have : l.enum.map Prod.fst = List.range l.length := List.enum_map_fst l
    have hg := congrArg (fun t => t.get? i) this
    simp only [List.get?_map] at hg
    rw [List.get?_eq_get h1] at hg
    have hr : (List.range l.length).get? i = some i := by
      rw [List.get?_eq_get (by simpa using h2)]
      simp
    rw [hr] at hg
    simpa using hg
  have hsnd := mem_enum_get? l _ hmem
  rw [hfst] at hsnd
  rw [List.get?_eq_get h2] at hsnd
  have : (l.enum.get ⟨i, h1⟩).2 = l.get ⟨i, h2⟩ := by
    injection hsnd with h; exact h.symm
  calc l.enum.get ⟨i, h1⟩
      = ((l.enum.get ⟨i, h1⟩).1, (l.enum.get ⟨i, h1⟩).2) := rfl
    _ = (i, l.get ⟨i, h2⟩) := by rw [hfst, this]

lemma postLog_get_eq (l : List Event) (i : Nat) (h1 : i < (postLog l).length)
    (h2 : i < l.length) :
    (postLog l).get ⟨i, h1⟩
      = (match (mutationsOf l).find? (fun m => m.1 = i) with
         | some m => m.2
         | none => l.get ⟨i, h2⟩) := by
  have hlen : i < l.enum.length := by simpa using h2
  unfold postLog
  rw [List.get_map]
  rw [enum_get_pair l i hlen h2]

/-- C9 (amended): the Reducer does mutate its input — for each
input/textarea bid group with non-empty concatenated data it overwrites the
`data` field of the group's last `input`-type event — but it changes
nothing else: list length and every field other than `data` of every event
are preserved, and every position that is not a mutation target is left
entirely unchanged. -/
theorem c9_reducer_mutation_frame (l : List Event) :
    (postLog l).length = l.length
    ∧ (∀ i (h1 : i < (postLog l).length) (h2 : i < l.length),
        stripData ((postLog l).get ⟨i, h1⟩) = stripData (l.get ⟨i, h2⟩))
    ∧ (∀ i (h1 : i < (postLog l).length) (h2 : i < l.length),
        (∀ m ∈ mutationsOf l, m.1 ≠ i) →
        (postLog l).get ⟨i, h1⟩ = l.get ⟨i, h2⟩) := by
  refine ⟨postLog_length l, ?_, ?_⟩
  · intro i h1 h2
    rw [postLog_get_eq l i h1 h2]
    cases hfind : (mutationsOf l).find? (fun m => m.1 = i) with
    | none => simp
    | some m =>
      simp only
      have hmem := List.mem_of_find?_eq_some hfind
      have hidx := List.find?_some hfind
      simp at hidx
      obtain ⟨p, hp, hm1, hm2⟩ := mutationsOf_spec l m hmem
      have hget := mem_enum_get? l p hp
      rw [← hm1, hidx, List.get?_eq_get h2] at hget
      have : p.2 = l.get ⟨i, h2⟩ := by injection hget with h; exact h.symm
      rw [hm2, this]
  · intro i h1 h2 hnone
    rw [postLog_get_eq l i h1 h2]
    have hfind : (mutationsOf l).find? (fun m => m.1 = i) = none := by
      rw [List.find?_eq_none]
      intro m hm
      simp
      exact hnone m hm
    rw [hfind]

/-- C9 witness: the frame theorem applied to the concrete mutated input
`exInputPair` at position 0 (an untouched position). -/
theorem c9_witness :
    stripData ((postLog exInputPair).get ⟨0, by decide⟩)
        = stripData (exInputPair.get ⟨0, by decide⟩)
      ∧ (postLog exInputPair).get ⟨0, by decide⟩ = exInputPair.get ⟨0, by decide⟩ := by
  refine ⟨(c9_reducer_mutation_frame exInputPair).2.1 0 (by decide) (by decide),
    (c9_reducer_mutation_frame exInputPair).2.2 0 (by decide) (by decide) ?_⟩
  decide

lemma mem_enumFrom_snd {α : Type} {p : Nat × α} {l : List α} {k : Nat}
    (h : p ∈ l.enumFrom k) : p.2 ∈ l := by
  have h2 := (mem_enumFrom_get? l k p h).2
  exact List.get?_mem h2

lemma rstep_single (b : String) (acc : List (Nat × Event)) (ie : Nat × Event)
    (hbid : ie.2.target.bid = b) :
    rstep ⟨[b], [(b, acc)], [b]⟩ ie = ⟨[b], [(b, acc ++ [ie])], [b]⟩ := by
  unfold rstep
  simp [hbid, alGet, alSet, List.find?]

lemma runState_single_go (b : String) :
    ∀ (es : List (Nat × Event)) (acc : List (Nat × Event)),
      (∀ ie ∈ es, ie.2.target.bid = b) →
      es.foldl rstep ⟨[b], [(b, acc)], [b]⟩ = ⟨[b], [(b, acc ++ es)], [b]⟩ := by
  intro es
  induction es with
  | nil => intro acc _; simp
  | cons ie es ih =>
    intro acc hb
    rw [List.foldl_cons, rstep_single b acc ie (hb ie (List.mem_cons_self _ _))]
    rw [ih (acc ++ [ie]) (fun x hx => hb x (List.mem_cons_of_mem _ hx))]
    simp

lemma runState_single (b : String) (e : Event) (rest : List Event)
    (hb : ∀ x ∈ e :: rest, x.target.bid = b) :
    runState (e :: rest) = ⟨[b], [(b, (e :: rest).enum)], [b]⟩ := by
  unfold runState
  have henum : (e :: rest).enum = (0, e) :: rest.enumFrom 1 := rfl
  rw [henum, List.foldl_cons]
  have hstep : rstep ⟨[], [], []⟩ (0, e) = ⟨[b], [(b, [(0, e)])], [b]⟩ := by
    unfold rstep
    simp [hb e (List.mem_cons_self _ _), alSet]
  rw [hstep]
  rw [runState_single_go b (rest.enumFrom 1) [(0, e)]
    (fun ie hie => hb ie.2 (List.mem_cons_of_mem _ (mem_enumFrom_snd hie)))]
  simp

lemma enumFrom_filter_snd (p : Event → Bool) :
    ∀ (l : List Event) (k : Nat),
      ((l.enumFrom k).filter (fun ie => p ie.2)).map (fun ie => ie.2) = l.filter p := by
  intro l
  induction l with
  | nil => intro k; rfl
  | cons e rest ih =>
    intro k
    show (((k, e) :: rest.enumFrom (k + 1)).filter (fun ie => p ie.2)).map
        (fun ie => ie.2) = (e :: rest).filter p
    by_cases hp : p e
    · rw [List.filter_cons_of_pos (by simpa using hp),
        List.filter_cons_of_pos (by simpa using hp), List.map_cons, ih (k + 1)]
    · rw [List.filter_cons_of_neg (by simpa using hp),
        List.filter_cons_of_neg (by simpa using hp), ih (k + 1)]

lemma inputsOf_ne_of_concat (l : List Event) (h : dataConcat l ≠ "") :
    inputsOf l ≠ [] := by
  intro hcon
  apply h
  unfold dataConcat
  rw [hcon]
  rfl

/-- C1 (amended): for a nonempty event list on a single bid whose common
tag is (lowercase) input or textarea, the Reducer emits exactly one event
iff the concatenation of the `data` fields of the list's `input`-type
events is non-empty; the emitted event is the LAST `input`-type event with
its `data` field replaced by that concatenation, and the Normalizer maps it
to a `fill` whose value is that last event's target value — the value of
the most recent `input` event even when that value is empty (not the most
recent non-empty value, and not the data concatenation); the bid yields no
output iff the data concatenation is empty. -/
theorem c1_input_last_value_amended (l : List Event) (b tg : String)
    (hne : l ≠ [])
    (hbid : ∀ e ∈ l, e.target.bid = b)
    (htagAll : ∀ e ∈ l, e.target.tag = tg)
    (htg : tg = "input" ∨ tg = "textarea") :
    (dataConcat l = "" → combine_and_map_events l = [])
    ∧ (dataConcat l ≠ "" →
        ∃ e, (inputsOf l).getLast? = some e
          ∧ combine_and_map_events l = [{ e with data := dataConcat l }]
          ∧ event_to_bgym_action { e with data := dataConcat l }
              = ⟨"fill", b, some e.target.value, none⟩) := by
  obtain ⟨e0, rest, rfl⟩ : ∃ e0 rest, l = e0 :: rest := by
    cases l with
    | nil => exact absurd rfl hne
    | cons a t => exact ⟨a, t, rfl⟩
  set l := e0 :: rest with hl
  have hrun := runState_single b e0 rest hbid
  have hcomb : combineIndexed l
      = match emitForBid l.enum with
        | some ie => [ie]
        | none => [] := by
    unfold combineIndexed
    rw [hrun]
    show List.filterMap _ [b] = _
    rw [List.filterMap]
    have hget : alGet [(b, l.enum)] b = some l.enum := by
      simp [alGet, List.find?]
    simp only [hget]
    cases emitForBid l.enum with
    | none => rfl
    | some ie => rfl
  have htagLow : lowerStr (e0.target.tag) = "input" ∨ lowerStr (e0.target.tag) = "textarea" := by
    rw [htagAll e0 (List.mem_cons_self _ _)]
    rcases htg with h | h <;> rw [h]
    · left; decide
    · right; decide
  have hemit : emitForBid l.enum = inputReduce l.enum := by
    unfold emitForBid
    have hh : l.enum.head? = some (0, e0) := rfl
    rw [hh]
    simp only
    rw [if_pos htagLow]
  have hinputs : (l.enum.filter (fun ie => ie.2.type = "input")).map (fun ie => ie.2)
      = inputsOf l := by
    exact enumFrom_filter_snd (fun e => e.type = "input") l 0
  have hconcat : ((l.enum.filter (fun ie => ie.2.type = "input")).map
      (fun ie => ie.2.data)).foldl (fun a b => a ++ b) "" = dataConcat l := by
    unfold dataConcat
    rw [← hinputs, List.map_map]
    rfl
  constructor
  · intro hd
    have : inputReduce l.enum = none := by
      simp only [inputReduce]
      rw [hconcat]
      rw [if_pos hd]
    unfold combine_and_map_events
    rw [hcomb, hemit, this]
    rfl
  · intro hd
    have hlast2 : ((l.enum.filter (fun ie => ie.2.type = "input")).getLast?).map
        (fun ie => ie.2) = (inputsOf l).getLast? := by
      rw [← hinputs, List.getLast?_map]
    have hne2 : inputsOf l ≠ [] := inputsOf_ne_of_concat l hd
    obtain ⟨e, he⟩ : ∃ e, (inputsOf l).getLast? = some e := by
      cases hx : (inputsOf l).getLast? with
      | none => exact absurd (List.getLast?_eq_none_iff.mp hx) hne2
      | some e => exact ⟨e, rfl⟩
    obtain ⟨q, hq⟩ : ∃ q, (l.enum.filter (fun ie => ie.2.type = "input")).getLast? = some q := by
      cases hx : (l.enum.filter (fun ie => ie.2.type = "input")).getLast? with
      | none =>
        rw [hx] at hlast2
        simp at hlast2
        rw [← hlast2] at he
        simp at he
      | some q => exact ⟨q, rfl⟩
    have hq2 : q.2 = e := by
      rw [hq] at hlast2
      simp at hlast2
      rw [he] at hlast2
      injection hlast2
    have hred : inputReduce l.enum = some (q.1, { q.2 with data := dataConcat l }) := by
      simp only [inputReduce]
      rw [hconcat]
      rw [if_neg hd, hq]
      rfl
    have heMem : e ∈ l := by
      have : e ∈ inputsOf l := List.mem_of_mem_getLast? he
      exact List.mem_of_mem_filter this
    have htagE : e.target.tag = tg := htagAll e heMem
    have hbidE : e.target.bid = b := hbid e heMem
    refine ⟨e, he, ?_, ?_⟩
    · unfold combine_and_map_events
      rw [hcomb, hemit, hred]
      simp [hq2]
    · unfold event_to_bgym_action
      have hupper : upperStr ({ e with data := dataConcat l }).target.tag = "INPUT"
          ∨ upperStr ({ e with data := dataConcat l }).target.tag = "TEXTAREA" := by
        show upperStr e.target.tag = "INPUT" ∨ upperStr e.target.tag = "TEXTAREA"
        rw [htagE]
        rcases htg with h | h <;> rw [h]
        · left; decide
        · right; decide
      have hnotSel : upperStr ({ e with data := dataConcat l }).target.tag ≠ "SELECT" := by
        rcases hupper with h | h <;> rw [h] <;> decide
      rw [if_neg hnotSel, if_pos hupper]
      show (⟨"fill", e.target.bid, some e.target.value, none⟩ : BAction) = _
      rw [hbidE]

/-- C1 witness: the spec's own example — `input` events whose target values
are "a", "ab", "abc" (deltas "a","b","c") reduce to one fill whose value is
"abc". -/
theorem c1_witness :
    combine_and_map_events exAbc
        = [⟨"input", 3, "", "abc", ⟨"a1", "input", "abc", "", ""⟩⟩]
      ∧ event_to_bgym_action ⟨"input", 3, "", "abc", ⟨"a1", "input", "abc", "", ""⟩⟩
          = ⟨"fill", "a1", some "abc", none⟩ := by
  obtain ⟨e, he, h1, h2⟩ :=
    (c1_input_last_value_amended exAbc "a1" "input" (by decide) (by decide)
      (by decide) (Or.inl rfl)).2 (by decide)
  have hex : e = ⟨"input", 3, "", "c", ⟨"a1", "input", "abc", "", ""⟩⟩ := by
    have : (inputsOf exAbc).getLast?
        = some ⟨"input", 3, "", "c", ⟨"a1", "input", "abc", "", ""⟩⟩ := by decide
    rw [this] at he
    injection he with h
    exact h.symm
  rw [hex] at h1 h2
  have hd : dataConcat exAbc = "abc" := by decide
  rw [hd] at h1 h2
  exact ⟨h1, h2⟩

lemma cntLt_le_length (obs : List Obs) (t : Int) : cntLt obs t ≤ obs.length :=
  List.length_filter_le _ _

lemma cntLt_mono (obs : List Obs) {t t' : Int} (h : t ≤ t') :
    cntLt obs t ≤ cntLt obs t' := by
  induction obs with
  | nil => exact Nat.le_refl _
  | cons o os ih =>
    unfold cntLt at *
    by_cases ho : o.timestamp < t
    · rw [List.filter_cons_of_pos (by simpa using ho),
        List.filter_cons_of_pos (by simp; omega)]
      simpa using ih
    · by_cases ho' : o.timestamp < t'
      · rw [List.filter_cons_of_neg (by simpa using ho),
          List.filter_cons_of_pos (by simpa using ho')]
        simp
        exact Nat.le_succ_of_le ih
      · rw [List.filter_cons_of_neg (by simpa using ho),
          List.filter_cons_of_neg (by simpa using ho')]
        exact ih

lemma cntLt_pos_head {o : Obs} {os : List Obs} {t : Int}
    (ho : ∀ x ∈ os, o.timestamp ≤ x.timestamp)
    (h : 0 < cntLt (o :: os) t) : o.timestamp < t := by
  by_contra hno
  have hall : cntLt (o :: os) t = 0 := by
    unfold cntLt
    rw [List.length_eq_zero, List.filter_eq_nil]
    intro x hx
    simp only [decide_eq_true_eq]
    rcases List.mem_cons.mp hx with h1 | h1
    · rw [h1]; omega
    · have := ho x h1; omega
  omega

lemma sorted_getD_lt_iff :
    ∀ (obs : List Obs),
      List.Pairwise (fun a b : Obs => a.timestamp ≤ b.timestamp) obs →
      ∀ (t : Int) (i : Nat), i < obs.length →
        ((obs.getD i defObs).timestamp < t ↔ i < cntLt obs t) := by
  intro obs
  induction obs with
  | nil => intro _ t i h; simp at h
  | cons o os ih =>
    intro hpw t i hi
    have ho := (List.pairwise_cons.mp hpw).1
    have hos := (List.pairwise_cons.mp hpw).2
    cases i with
    | zero =>
      simp only [List.getD_cons_zero]
      constructor
      · intro h
        unfold cntLt
        rw [List.filter_cons_of_pos (by simpa using h)]
        simp
      · intro h
        exact cntLt_pos_head ho h
    | succ i =>
      simp only [List.getD_cons_succ]
      have hi2 : i < os.length := by simpa using hi
      rw [ih hos t i hi2]
      by_cases hoh : o.timestamp < t
      · unfold cntLt
        rw [List.filter_cons_of_pos (by simpa using hoh)]
        simp [Nat.succ_lt_succ_iff]
      · have hz : cntLt os t = 0 := by
          unfold cntLt
          rw [List.length_eq_zero, List.filter_eq_nil]
          intro x hx
          simp only [decide_eq_true_eq]
          have := ho x hx; omega
        have hz2 : cntLt (o :: os) t = 0 := by
          unfold cntLt
          rw [List.length_eq_zero, List.filter_eq_nil]
          intro x hx
          simp only [decide_eq_true_eq]
          rcases List.mem_cons.mp hx with h1 | h1
          · rw [h1]; omega
          · have := ho x h1; omega
        rw [hz, hz2]
        simp

lemma advanceGo_ge (obs : List Obs) (t : Int) :
    ∀ (fuel j : Nat), j ≤ advanceGo obs t j fuel := by
  intro fuel
  induction fuel with
  | zero => intro j; exact Nat.le_refl _
  | succ fuel ih =>
    intro j
    unfold advanceGo
    by_cases h : j + 1 < obs.length ∧ (obs.getD (j + 1) defObs).timestamp < t
    · rw [if_pos h]
      exact Nat.le_trans (Nat.le_succ j) (ih (j + 1))
    · rw [if_neg h]

lemma advance_ge (obs : List Obs) (t : Int) (j : Nat) : j ≤ advance obs t j :=
  advanceGo_ge obs t _ j

lemma advanceGo_eq (obs : List Obs)
    (hso : List.Pairwise (fun a b : Obs => a.timestamp ≤ b.timestamp) obs)
    (t : Int) :
    ∀ (fuel j : Nat), obs.length - j ≤ fuel → j < obs.length →
      j + 1 ≤ max (cntLt obs t) 1 →
      advanceGo obs t j fuel = max (cntLt obs t) 1 - 1 := by
  intro fuel
  induction fuel with
  | zero => intro j hf hj _; omega
  | succ fuel ih =>
    intro j hf hj hle
    unfold advanceGo
    by_cases h : j + 1 < obs.length ∧ (obs.getD (j + 1) defObs).timestamp < t
    · rw [if_pos h]
      have hcnt : j + 1 < cntLt obs t :=
        (sorted_getD_lt_iff obs hso t (j + 1) h.1).mp h.2
      exact ih (j + 1) (by omega) h.1 (by omega)
    · rw [if_neg h]
      have hub : max (cntLt obs t) 1 ≤ j + 1 := by
        by_cases h1 : j + 1 < obs.length
        · have h2 : ¬ (obs.getD (j + 1) defObs).timestamp < t := fun hc => h ⟨h1, hc⟩
          have h3 : ¬ (j + 1 < cntLt obs t) := fun hc =>
            h2 ((sorted_getD_lt_iff obs hso t (j + 1) h1).mpr hc)
          omega
        · have := cntLt_le_length obs t
          omega
      omega

lemma advance_eq (obs : List Obs)
    (hso : List.Pairwise (fun a b : Obs => a.timestamp ≤ b.timestamp) obs)
    (t : Int) (j : Nat) (hj : j < obs.length)
    (hle : j + 1 ≤ max (cntLt obs t) 1) :
    advance obs t j = max (cntLt obs t) 1 - 1 :=
  advanceGo_eq obs hso t (obs.length - j) j (Nat.le_refl _) hj hle

lemma pairAux_eq (obs : List Obs)
    (hso : List.Pairwise (fun a b : Obs => a.timestamp ≤ b.timestamp) obs)
    (hne : obs ≠ []) :
    ∀ (events : List Event),
      List.Pairwise (fun a b : Event => a.timestamp ≤ b.timestamp) events →
      ∀ j, j < obs.length →
        (∀ e ∈ events, j + 1 ≤ max (cntLt obs e.timestamp) 1) →
        pairAux obs j events
          = events.map (fun e => (obs.getD (cntLt obs e.timestamp - 1) defObs, e)) := by
  intro events
  induction events with
  | nil => intro _ j _ _; rfl
  | cons e es ih =>
    intro hpw j hj hpre
    have he := (List.pairwise_cons.mp hpw).1
    have hes := (List.pairwise_cons.mp hpw).2
    have hlen : 0 < obs.length := List.length_pos.mpr hne
    have hadv : advance obs e.timestamp j = max (cntLt obs e.timestamp) 1 - 1 :=
      advance_eq obs hso e.timestamp j hj (hpre e (List.mem_cons_self _ _))
    have hj' : advance obs e.timestamp j < obs.length := by
      rw [hadv]
      have := cntLt_le_length obs e.timestamp
      omega
    unfold pairAux
    have hidx : max (cntLt obs e.timestamp) 1 - 1 = cntLt obs e.timestamp - 1 := by omega
    rw [if_pos hj', List.map_cons, hadv, hidx]
    refine congrArg (List.cons _) ?_
    have hj2 : cntLt obs e.timestamp - 1 < obs.length := by
      rw [← hidx, ← hadv]; exact hj'
    refine ih hes _ hj2 ?_
    intro x hx
    have hmono : cntLt obs e.timestamp ≤ cntLt obs x.timestamp :=
      cntLt_mono obs (he x hx)
    omega

/-- C3 (amended): under sorted inputs, the Pairer pairs each action with
the latest observation whose timestamp is STRICTLY LESS than the action's
timestamp (index `cntLt - 1`), not "does not exceed" — an observation whose
timestamp exactly equals the action's is not chosen; and an action with no
strictly-preceding observation (in particular one preceding every recorded
observation) is paired with the first observation (truncated index 0)
rather than crashing. -/
theorem c3_pair_strictly_before_amended (events : List Event) (obs : List Obs)
    (hne : obs ≠ [])
    (hso : List.Pairwise (fun a b : Obs => a.timestamp ≤ b.timestamp) obs)
    (hse : List.Pairwise (fun a b : Event => a.timestamp ≤ b.timestamp) events) :
    pair_closest_before events obs
      = events.map (fun e => (obs.getD (cntLt obs e.timestamp - 1) defObs, e)) := by
  unfold pair_closest_before
  exact pairAux_eq obs hso hne events hse 0 (List.length_pos.mpr hne)
    (fun e _ => Nat.le_max_right _ _)

/-- C3 witness: the amended pairing law applied to a concrete sorted input
(`cntLt` evaluates to indices 0, 0, 1: the tie at timestamp 5 stays on the
first observation, the later action advances). -/
theorem c3_witness :
    pair_closest_before
        [⟨"click", 3, "", "", ⟨"b", "button", "", "", ""⟩⟩,
         ⟨"click", 5, "", "", ⟨"b", "button", "", "", ""⟩⟩,
         ⟨"click", 7, "", "", ⟨"b", "button", "", "", ""⟩⟩]
        [⟨0, "", ""⟩, ⟨5, "", ""⟩]
      = [(⟨0, "", ""⟩, ⟨"click", 3, "", "", ⟨"b", "button", "", "", ""⟩⟩),
         (⟨0, "", ""⟩, ⟨"click", 5, "", "", ⟨"b", "button", "", "", ""⟩⟩),
         (⟨5, "", ""⟩, ⟨"click", 7, "", "", ⟨"b", "button", "", "", ""⟩⟩)] := by
  rw [c3_pair_strictly_before_amended _ _ (by decide) (by decide) (by decide)]
  decide

/-- C3 counterexample: with observations at timestamps 0 and 5 and an
action at timestamp 5, the code pairs the action with the observation at 0,
whereas the latest observation whose timestamp does not exceed the action's
is the one at 5 — the claim's "less than or equal" reading is false on the
code, which uses strict comparison. -/
theorem c3_counterexample :
    pair_closest_before [⟨"click", 5, "", "", ⟨"b", "button", "", "", ""⟩⟩]
        [⟨0, "", ""⟩, ⟨5, "", ""⟩]
      = [(⟨0, "", ""⟩, ⟨"click", 5, "", "", ⟨"b", "button", "", "", ""⟩⟩)]
      ∧ specLatestAtMost [⟨0, "", ""⟩, ⟨5, "", ""⟩] 5 = some ⟨5, "", ""⟩
      ∧ (⟨0, "", ""⟩ : Obs) ≠ ⟨5, "", ""⟩ := by
  refine ⟨by decide, by decide, by decide⟩

lemma pairIdxAux_chain (obs : List Obs) :
    ∀ (events : List Event) (j : Nat),
      List.Chain' (fun a b => a ≤ b) (pairIdxAux obs j events)
      ∧ ∀ x ∈ pairIdxAux obs j events, j ≤ x := by
  intro events
  induction events with
  | nil =>
    intro j
    refine ⟨List.chain'_nil, ?_⟩
    intro x hx
    exact absurd hx (List.not_mem_nil x)
  | cons e es ih =>
    intro j
    have hge : j ≤ advance obs e.timestamp j := advance_ge obs e.timestamp j
    unfold pairIdxAux
    by_cases hj' : advance obs e.timestamp j < obs.length
    · rw [if_pos hj']
      obtain ⟨hch, hall⟩ := ih (advance obs e.timestamp j)
      constructor
      · rw [List.chain'_cons']
        exact ⟨fun y hy => hall y (List.mem_of_mem_head? hy), hch⟩
      · intro x hx
        rcases List.mem_cons.mp hx with h1 | h1
        · omega
        · exact Nat.le_trans hge (hall x h1)
    · rw [if_neg hj']
      obtain ⟨hch, hall⟩ := ih (advance obs e.timestamp j)
      exact ⟨hch, fun x hx => Nat.le_trans hge (hall x hx)⟩

lemma pairAux_fst (obs : List Obs) :
    ∀ (events : List Event) (j : Nat),
      (pairAux obs j events).map Prod.fst
        = (pairIdxAux obs j events).map (fun i => obs.getD i defObs) := by
  intro events
  induction events with
  | nil => intro j; rfl
  | cons e es ih =>
    intro j
    unfold pairAux pairIdxAux
    by_cases hj' : advance obs e.timestamp j < obs.length
    · rw [if_pos hj', if_pos hj', List.map_cons, List.map_cons, ih]
    · rw [if_neg hj', if_neg hj', ih]

/-- C6: for sorted action and observation lists, the sequence of
observation indices chosen by the Pairer is non-decreasing (the observation
pointer only ever advances; `pairAux_fst` ties `pairIndices` to the pairs
actually emitted by `pair_closest_before`). -/
theorem c6_pairing_monotone (events : List Event) (obs : List Obs)
    (hse : List.Pairwise (fun a b : Event => a.timestamp ≤ b.timestamp) events)
    (hso : List.Pairwise (fun a b : Obs => a.timestamp ≤ b.timestamp) obs) :
    List.Chain' (fun a b => a ≤ b) (pairIndices events obs) :=
  (pairIdxAux_chain obs events 0).1

/-- C6 witness: the monotonicity theorem applied to concrete sorted lists
(chosen indices `[0, 0, 1]`). -/
theorem c6_witness :
    List.Chain' (fun a b => a ≤ b)
      (pairIndices
        [⟨"click", 3, "", "", ⟨"b", "button", "", "", ""⟩⟩,
         ⟨"click", 5, "", "", ⟨"b", "button", "", "", ""⟩⟩,
         ⟨"click", 7, "", "", ⟨"b", "button", "", "", ""⟩⟩]
        [⟨0, "", ""⟩, ⟨5, "", ""⟩]) :=
  c6_pairing_monotone _ _ (by decide) (by decide)

lemma selectBest_append (a : ParsedAction) (matched : List Nat)
    (ms : List Milestone) (m : Milestone) :
    selectBest a (ms ++ [m]) matched
      = sbStep a matched (selectBest a ms matched) (ms.length, m) := by
  unfold selectBest
  rw [List.enum_append]
  simp [List.foldl_append, List.enumFrom]

lemma selectBest_inv (a : ParsedAction) (matched : List Nat)
    (ms : List Milestone) :
    ((selectBest a ms matched).1 < 0 → selectBest a ms matched = (-1, 0))
    ∧ (∀ j, j < ms.length → j ∉ matched →
        (action_matches_milestone a (ms.getD j defMilestone)).1 = true →
        (action_matches_milestone a (ms.getD j defMilestone)).2
          ≤ (selectBest a ms matched).2)
    ∧ (0 ≤ (selectBest a ms matched).1 →
        (selectBest a ms matched).1.toNat < ms.length
        ∧ (selectBest a ms matched).1.toNat ∉ matched
        ∧ action_matches_milestone a
            (ms.getD (selectBest a ms matched).1.toNat defMilestone)
            = (true, (selectBest a ms matched).2)
        ∧ ∀ j, j < (selectBest a ms matched).1.toNat → j ∉ matched →
            (action_matches_milestone a (ms.getD j defMilestone)).1 = true →
            (action_matches_milestone a (ms.getD j defMilestone)).2
              < (selectBest a ms matched).2) := by
  induction ms using List.reverseRecOn with
  | nil =>
    refine ⟨fun _ => rfl, ?_, ?_⟩
    · intro j hj; simp at hj
    · intro h
      have hz : (selectBest a ([] : List Milestone) matched).1 = -1 := rfl
      omega
  | append_singleton ms m ih =>
    obtain ⟨ih1, ih2, ih3⟩ := ih
    have hgetlt : ∀ j, j < ms.length →
        (ms ++ [m]).getD j defMilestone = ms.getD j defMilestone :=
      fun j hj => List.getD_append _ _ _ _ hj
    have hgetn : (ms ++ [m]).getD ms.length defMilestone = m := by
      simp [List.getD_eq_getElem?_getD, List.getElem?_append_right]
    have hlen : (ms ++ [m]).length = ms.length + 1 := by simp
    have hsel := selectBest_append a matched ms m
    unfold sbStep at hsel
    by_cases hmem : ms.length ∈ matched
    · rw [if_pos hmem] at hsel
      refine ⟨?_, ?_, ?_⟩
      · intro h; rw [hsel] at h ⊢; exact ih1 h
      · intro j hj hjm hflag
        rw [hlen] at hj
        rcases Nat.lt_or_ge j ms.length with hjl | hje
        · rw [hgetlt j hjl] at hflag ⊢
          rw [hsel]
          exact ih2 j hjl hjm hflag
        · have : j = ms.length := by omega
          exact absurd hmem (this ▸ hjm)
      · intro h
        rw [hsel] at h ⊢
        rw [hlen]
        obtain ⟨p1, p2, p3, p4⟩ := ih3 h
        refine ⟨by omega, p2, ?_, ?_⟩
        · rw [hgetlt _ p1]; exact p3
        · intro j hj hjm hflag
          rw [hgetlt j (by omega)] at hflag ⊢
          exact p4 j hj hjm hflag
    · rw [if_neg hmem] at hsel
      by_cases hupd : (action_matches_milestone a m).1 = true
          ∧ (action_matches_milestone a m).2 > (selectBest a ms matched).2
      · rw [if_pos hupd] at hsel
        refine ⟨?_, ?_, ?_⟩
        · intro h
          rw [hsel] at h
          exact absurd h (by simp)
        · intro j hj hjm hflag
          rw [hlen] at hj
          rw [hsel]
          rcases Nat.lt_or_ge j ms.length with hjl | hje
          · rw [hgetlt j hjl] at hflag ⊢
            have hle := ih2 j hjl hjm hflag
            exact le_of_lt (lt_of_le_of_lt hle hupd.2)
          · have hje2 : j = ms.length := by omega
            exact le_of_eq (by rw [hje2, hgetn])
        · intro _
          rw [hsel, hlen]
          simp only [Int.toNat_ofNat]
          refine ⟨by omega, hmem, ?_, ?_⟩
          · rw [hgetn]
            exact Prod.ext_iff.mpr ⟨hupd.1, rfl⟩
          · intro j hj hjm hflag
            rw [hgetlt j (by omega)] at hflag ⊢
            have hle := ih2 j (by omega) hjm hflag
            exact lt_of_le_of_lt hle hupd.2
      · rw [if_neg hupd] at hsel
        refine ⟨?_, ?_, ?_⟩
        · intro h; rw [hsel] at h ⊢; exact ih1 h
        · intro j hj hjm hflag
          rw [hlen] at hj
          rw [hsel]
          rcases Nat.lt_or_ge j ms.length with hjl | hje
          · rw [hgetlt j hjl] at hflag ⊢
            exact ih2 j hjl hjm hflag
          · have hje2 : j = ms.length := by omega
            rw [hje2, hgetn] at hflag ⊢
            by_contra hgt
            exact hupd ⟨hflag, not_le.mp hgt⟩
        · intro h
          rw [hsel] at h ⊢
          rw [hlen]
          obtain ⟨p1, p2, p3, p4⟩ := ih3 h
          refine ⟨by omega, p2, ?_, ?_⟩
          · rw [hgetlt _ p1]; exact p3
          · intro j hj hjm hflag
            rw [hgetlt j (by omega)] at hflag ⊢
            exact p4 j hj hjm hflag

/-- C10: the milestone selection is deterministic under ties — a later
still-unmatched milestone replaces the current best only on a strictly
greater score, so the selected index is a true-flagged candidate attaining
the maximal score, every earlier still-unmatched true-flagged candidate
scores strictly less (hence among equally highest-scoring candidates the
earliest in the list wins). -/
theorem c10_tie_earliest (a : ParsedAction) (ms : List Milestone)
    (matched : List Nat) (i : Nat) (s : Rat)
    (h : selectBest a ms matched = ((i : Int), s)) :
    i < ms.length ∧ i ∉ matched
    ∧ action_matches_milestone a (ms.getD i defMilestone) = (true, s)
    ∧ (∀ j, j < ms.length → j ∉ matched →
        (action_matches_milestone a (ms.getD j defMilestone)).1 = true →
        (action_matches_milestone a (ms.getD j defMilestone)).2 ≤ s)
    ∧ (∀ j, j < i → j ∉ matched →
        (action_matches_milestone a (ms.getD j defMilestone)).1 = true →
        (action_matches_milestone a (ms.getD j defMilestone)).2 < s) := by
  obtain ⟨_, p2, p3⟩ := selectBest_inv a matched ms
  have hge : 0 ≤ (selectBest a ms matched).1 := by rw [h]; exact Int.ofNat_nonneg i
  obtain ⟨q1, q2, q3, q4⟩ := p3 hge
  rw [h] at q1 q2 q3 q4
  simp only [Int.toNat_ofNat] at q1 q2 q3 q4
  have hs2 : (selectBest a ms matched).2 = s := by rw [h]
  rw [hs2] at p2
  exact ⟨q1, q2, q3, p2, q4⟩

/-- C10 witness: two identical still-unmatched click milestones both match
a `select_option` action with confidence 1.0; the fold selects index 0,
the earliest. -/
theorem c10_witness :
    (0 : Nat) < 2
    ∧ (0 : Nat) ∉ ([] : List Nat)
    ∧ action_matches_milestone (ParsedAction.selectOption "a" "Financial")
        ([⟨1, "m1", "click", "option", some "Financial", none, 1⟩,
          ⟨2, "m2", "click", "option", some "Financial", none, 1⟩].getD 0 defMilestone)
        = (true, 1) := by
  have h := c10_tie_earliest (ParsedAction.selectOption "a" "Financial")
    [⟨1, "m1", "click", "option", some "Financial", none, 1⟩,
     ⟨2, "m2", "click", "option", some "Financial", none, 1⟩] [] 0 1 (by decide)
  exact ⟨h.1, h.2.1, h.2.2.1⟩

lemma nodup_append_singleton {α : Type} {l : List α} {x : α}
    (h : l.Nodup) (hx : x ∉ l) : (l ++ [x]).Nodup := by
  simp [List.nodup_append, h, hx]

lemma evaluate_go (ms : List Milestone) :
    ∀ (ps : List ParsedAction) (k : Nat) (st : EvalSt),
      st.matchedM = st.assigns.map (fun r => r.mIdx) →
      st.matchedA = st.assigns.map (fun r => r.aIdx) →
      st.matchedM.Nodup →
      st.matchedA.Nodup →
      (∀ x ∈ st.matchedA, x < k) →
      (∀ r ∈ st.assigns, mkRat 3 10 < r.score) →
      ((ps.enumFrom k).foldl (evalStep ms) st).matchedM
          = ((ps.enumFrom k).foldl (evalStep ms) st).assigns.map (fun r => r.mIdx)
      ∧ ((ps.enumFrom k).foldl (evalStep ms) st).matchedA
          = ((ps.enumFrom k).foldl (evalStep ms) st).assigns.map (fun r => r.aIdx)
      ∧ ((ps.enumFrom k).foldl (evalStep ms) st).matchedM.Nodup
      ∧ ((ps.enumFrom k).foldl (evalStep ms) st).matchedA.Nodup
      ∧ (∀ x ∈ ((ps.enumFrom k).foldl (evalStep ms) st).matchedA, x < k + ps.length)
      ∧ (∀ r ∈ ((ps.enumFrom k).foldl (evalStep ms) st).assigns,
          mkRat 3 10 < r.score) := by
  intro ps
  induction ps with
  | nil =>
    intro k st h1 h2 h3 h4 h5 h6
    exact ⟨h1, h2, h3, h4, fun x hx => Nat.lt_of_lt_of_le (h5 x hx) (by omega), h6⟩
  | cons p ps ih =>
    intro k st h1 h2 h3 h4 h5 h6
    have hstep : (List.enumFrom k (p :: ps)).foldl (evalStep ms) st
        = (List.enumFrom (k + 1) ps).foldl (evalStep ms) (evalStep ms st (k, p)) := rfl
    rw [hstep]
    have hlen : k + 1 + ps.length = k + (p :: ps).length := by simp; omega
    rw [← hlen] at *
    by_cases hu : isUnknown p = true
    · have hst : evalStep ms st (k, p) = st := by
        unfold evalStep; rw [if_pos hu]
      rw [hst]
      exact ih (k + 1) st h1 h2 h3 h4
        (fun x hx => Nat.lt_of_lt_of_le (h5 x hx) (by omega)) h6
    · have hst : evalStep ms st (k, p)
          = (if 0 ≤ (selectBest p ms st.matchedM).1
                ∧ (selectBest p ms st.matchedM).2 > mkRat 3 10 then
              { matchedM := st.matchedM ++ [(selectBest p ms st.matchedM).1.toNat]
                matchedA := st.matchedA ++ [k]
                assigns := st.assigns ++ [⟨(selectBest p ms st.matchedM).1.toNat, k,
                  (selectBest p ms st.matchedM).2⟩]
                scoreSum := st.scoreSum + (selectBest p ms st.matchedM).2
                  * (ms.getD (selectBest p ms st.matchedM).1.toNat defMilestone).weight
                completedCount := st.completedCount
                  + (if (selectBest p ms st.matchedM).2 ≥ mkRat 7 10 then 1 else 0) }
            else st) := by
        unfold evalStep; rw [if_neg hu]
      by_cases hg : 0 ≤ (selectBest p ms st.matchedM).1
          ∧ (selectBest p ms st.matchedM).2 > mkRat 3 10
      · rw [if_pos hg] at hst
        rw [hst]
        have hnotm : (selectBest p ms st.matchedM).1.toNat ∉ st.matchedM :=
          ((selectBest_inv p st.matchedM ms).2.2 hg.1).2.1
        have hka : k ∉ st.matchedA := fun hk => absurd (h5 k hk) (by omega)
        refine ih (k + 1) _ ?_ ?_ ?_ ?_ ?_ ?_
        · simp [h1]
        · simp [h2]
        · exact nodup_append_singleton h3 hnotm
        · exact nodup_append_singleton h4 hka
        · intro x hx
          simp at hx
          rcases hx with hx | hx
          · exact Nat.lt_of_lt_of_le (h5 x hx) (by omega)
          · omega
        · intro r hr
          simp at hr
          rcases hr with hr | hr
          · exact h6 r hr
          · rw [hr]
            exact hg.2
      · rw [if_neg hg] at hst
        rw [hst]
        exact ih (k + 1) st h1 h2 h3 h4
          (fun x hx => Nat.lt_of_lt_of_le (h5 x hx) (by omega)) h6

/-- C8: in one evaluation run, no milestone index is assigned twice and no
action index is assigned twice (both projected index lists are
duplicate-free), and every accepted match has confidence strictly above
0.3 (`mkRat 3 10`). -/
theorem c8_milestone_exclusivity (actions : List String) (ms : List Milestone) :
    ((evaluate_trajectory actions ms).assigns.map (fun r => r.mIdx)).Nodup
    ∧ ((evaluate_trajectory actions ms).assigns.map (fun r => r.aIdx)).Nodup
    ∧ ∀ r ∈ (evaluate_trajectory actions ms).assigns, mkRat 3 10 < r.score := by
  have h := evaluate_go ms (actions.map parse_action) 0 ⟨[], [], [], 0, 0⟩
    rfl rfl List.nodup_nil List.nodup_nil
    (by intro x hx; exact absurd hx (List.not_mem_nil x))
    (by intro r hr; exact absurd hr (List.not_mem_nil r))
  obtain ⟨e1, e2, n1, n2, _, hsc⟩ := h
  have henum : (actions.map parse_action).enumFrom 0
      = (actions.map parse_action).enum := rfl
  rw [henum] at e1 e2 n1 n2 hsc
  refine ⟨?_, ?_, hsc⟩
  · rw [show (evaluate_trajectory actions ms)
        = ((actions.map parse_action).enum).foldl (evalStep ms) ⟨[], [], [], 0, 0⟩
      from rfl, ← e1]
    exact n1
  · rw [show (evaluate_trajectory actions ms)
        = ((actions.map parse_action).enum).foldl (evalStep ms) ⟨[], [], [], 0, 0⟩
      from rfl, ← e2]
    exact n2

/-- C8 witness: the exclusivity theorem at a concrete run (two actions,
two milestones; the conjunction's membership quantifier ranges over the
computed assignment list). -/
theorem c8_witness :
    ((evaluate_trajectory
        ["select_option(\"a\", \"Financial\")", "click(\"b\")"]
        [⟨1, "m1", "click", "option", some "Financial", none, 1⟩,
         ⟨2, "m2", "click", "option", some "Financial", none, 1⟩]).assigns.map
        (fun r => r.mIdx)).Nodup
    ∧ ((evaluate_trajectory
        ["select_option(\"a\", \"Financial\")", "click(\"b\")"]
        [⟨1, "m1", "click", "option", some "Financial", none, 1⟩,
         ⟨2, "m2", "click", "option", some "Financial", none, 1⟩]).assigns.map
        (fun r => r.aIdx)).Nodup
    ∧ ∀ r ∈ (evaluate_trajectory
        ["select_option(\"a\", \"Financial\")", "click(\"b\")"]
        [⟨1, "m1", "click", "option", some "Financial", none, 1⟩,
         ⟨2, "m2", "click", "option", some "Financial", none, 1⟩]).assigns,
        mkRat 3 10 < r.score :=
  c8_milestone_exclusivity
    ["select_option(\"a\", \"Financial\")", "click(\"b\")"]
    [⟨1, "m1", "click", "option", some "Financial", none, 1⟩,
     ⟨2, "m2", "click", "option", some "Financial", none, 1⟩]

lemma takeWhile_all {α : Type} (p : α → Bool) :
    ∀ (l : List α), (∀ c ∈ l, p c = true) → l.takeWhile p = l := by
  intro l
  induction l with
  | nil => intro _; rfl
  | cons a t ih =>
    intro h
    rw [List.takeWhile_cons, h a (List.mem_cons_self _ _), ih
      (fun c hc => h c (List.mem_cons_of_mem _ hc))]
    simp

lemma takeWhile_append_stop {α : Type} (p : α → Bool) :
    ∀ (l : List α) (y : α) (r : List α), (∀ c ∈ l, p c = true) → p y = false →
      (l ++ y :: r).takeWhile p = l := by
  intro l
  induction l with
  | nil =>
    intro y r _ hy
    rw [List.nil_append, List.takeWhile_cons, hy]
    simp
  | cons a t ih =>
    intro y r h hy
    rw [List.cons_append, List.takeWhile_cons, h a (List.mem_cons_self _ _),
      ih y r (fun c hc => h c (List.mem_cons_of_mem _ hc)) hy]
    simp

lemma trimChars_id {l : List Char} {c1 : Char} {l1 : List Char}
    (hhd : l = c1 :: l1) (h1 : c1.isWhitespace = false)
    {c2 : Char} {l2 : List Char}
    (htl : l = l2 ++ [c2]) (h2 : c2.isWhitespace = false) : trimChars l = l := by
  unfold trimChars
  have hA : l.dropWhile Char.isWhitespace = l := by
    rw [hhd, List.dropWhile_cons, h1]
    simp
  rw [hA]
  have hrev : l.reverse = c2 :: l2.reverse := by
    rw [htl, List.reverse_append]
    rfl
  rw [hrev, List.dropWhile_cons, h2]
  simp [← hrev]

lemma matchLit_append (pat r : List Char) : matchLit pat (pat ++ r) = some r := by
  unfold matchLit
  rw [List.take_left, List.drop_left, if_pos rfl]

lemma matchLit_none_of_head {pat l : List Char}
    (hp : pat.head? ≠ l.head?) (hpne : pat ≠ []) : matchLit pat l = none := by
  unfold matchLit
  cases pat with
  | nil => exact absurd rfl hpne
  | cons p pat' =>
    cases l with
    | nil =>
      rw [if_neg]
      intro h
      simp at h
    | cons q l' =>
      rw [if_neg]
      intro h
      rw [List.length_cons, List.take_succ_cons] at h
      injection h with h1 _
      rw [h1] at hp
      simp at hp

lemma searchDesc_succ {α : Type} (f : Nat → Option α) (i : Nat) :
    searchDesc f (i + 1)
      = match f (i + 1) with
        | some r => some r
        | none => searchDesc f i := rfl

lemma searchDesc_step_none {α : Type} (f : Nat → Option α) (i : Nat)
    (h : f (i + 1) = none) : searchDesc f (i + 1) = searchDesc f i := by
  rw [searchDesc_succ, h]

lemma searchDesc_step_some {α : Type} (f : Nat → Option α) (i : Nat) (x : α)
    (h : f (i + 1) = some x) : searchDesc f (i + 1) = some x := by
  rw [searchDesc_succ, h]

lemma g2_eval (v : List Char) (hv : v ≠ []) (hnl : ∀ c ∈ v, c ≠ nlC) :
    g2 (v ++ [dqC, rparC]) = some v := by
  unfold g2
  have hall : (v ++ [dqC, rparC]).takeWhile (fun c => c ≠ nlC) = v ++ [dqC, rparC] := by
    refine takeWhile_all _ _ ?_
    intro c hc
    rcases List.mem_append.mp hc with h | h
    · simp [hnl c h]
    · simp at h
      rcases h with h | h <;> rw [h] <;> decide
  rw [hall]
  have hlen : (v ++ [dqC, rparC]).length = v.length + 1 + 1 := by
    rw [List.length_append]
    rfl
  rw [hlen]
  have hd2 : (v ++ [dqC, rparC]).drop (v.length + 1 + 1) = [] := by
    have h : v.length + 1 + 1 = v.length + 2 := by omega
    rw [h, List.drop_append 2]
    rfl
  rw [searchDesc_step_none _ (v.length + 1) (by simp only [hd2])]
  have hd1 : (v ++ [dqC, rparC]).drop (v.length + 1) = [rparC] := by
    rw [List.drop_append 1]
    rfl
  rw [searchDesc_step_none _ v.length (by simp only [hd1])]
  obtain ⟨c0, v', rfl⟩ : ∃ c0 v', v = c0 :: v' := by
    cases v with
    | nil => exact absurd rfl hv
    | cons a t => exact ⟨a, t, rfl⟩
  rw [List.length_cons]
  have hd0 : ((c0 :: v') ++ [dqC, rparC]).drop (v'.length + 1) = [dqC, rparC] := by
    rw [show v'.length + 1 = (c0 :: v').length from rfl, List.drop_left]
  have ht0 : ((c0 :: v') ++ [dqC, rparC]).take (v'.length + 1) = c0 :: v' := by
    rw [show v'.length + 1 = (c0 :: v').length from rfl, List.take_left]
  rw [searchDesc_step_some _ v'.length _
    (by simp only [hd0, ht0]; rw [if_pos (by decide)])]

lemma dropOptQuote_quote (q : Char) (rest : List Char) (hq : isQuoteC q = true) :
    dropOptQuote (q :: rest) = rest := by
  simp [dropOptQuote, hq]

lemma fillKont_eval (v : List Char) (hv : v ≠ []) (hnl : ∀ c ∈ v, c ≠ nlC) :
    fillKont (commaC :: spaceC :: dqC :: (v ++ [dqC, rparC])) = some v := by
  have hdw : (spaceC :: dqC :: (v ++ [dqC, rparC])).dropWhile Char.isWhitespace
      = dqC :: (v ++ [dqC, rparC]) := by
    rw [List.dropWhile_cons, if_pos (by decide), List.dropWhile_cons,
      if_neg (by decide)]
  show (if commaC = commaC then
      match (spaceC :: dqC :: (v ++ [dqC, rparC])).dropWhile Char.isWhitespace with
      | q :: r4 => if isQuoteC q then g2 r4 else none
      | [] => none
    else none) = some v
  rw [if_pos rfl, hdw]
  show (if isQuoteC dqC then g2 (v ++ [dqC, rparC]) else none) = some v
  rw [if_pos (by decide)]
  exact g2_eval v hv hnl

lemma matchG1_fillKont_eval (b v : List Char) (hb : okBidChars b)
    (hv : okValChars v) :
    matchG1 (dqC :: (b ++ (dqC :: commaC :: spaceC :: dqC :: (v ++ [dqC, rparC]))))
        fillKont
      = some (b, v) := by
  unfold matchG1
  rw [dropOptQuote_quote dqC _ (by decide)]
  have hrun : (b ++ (dqC :: commaC :: spaceC :: dqC :: (v ++ [dqC, rparC]))).takeWhile
      (fun c => ¬ isQuoteC c) = b := by
    refine takeWhile_append_stop _ b dqC _ ?_ (by decide)
    intro c hc
    simp [hb.2 c hc]
  simp only [hrun]
  obtain ⟨b0, b', rfl⟩ : ∃ b0 b', b = b0 :: b' := by
    cases b with
    | nil => exact absurd rfl hb.1
    | cons a t => exact ⟨a, t, rfl⟩
  rw [List.length_cons]
  have hdrop : ((b0 :: b') ++ (dqC :: commaC :: spaceC :: dqC :: (v ++ [dqC, rparC]))).drop
      (b'.length + 1) = dqC :: commaC :: spaceC :: dqC :: (v ++ [dqC, rparC]) := by
    rw [show b'.length + 1 = (b0 :: b').length from rfl, List.drop_left]
  have htake : ((b0 :: b') ++ (dqC :: commaC :: spaceC :: dqC :: (v ++ [dqC, rparC]))).take
      (b'.length + 1) = b0 :: b' := by
    rw [show b'.length + 1 = (b0 :: b').length from rfl, List.take_left]
  rw [searchDesc_step_some _ b'.length _ ?_]
  simp only [hdrop, htake]
  rw [dropOptQuote_quote dqC _ (by decide), fillKont_eval v hv.1 hv.2.2]
  rfl

lemma matchG1_clickKont_eval (b : List Char) (hb : okBidChars b) :
    matchG1 (dqC :: (b ++ [dqC, rparC])) clickKont = some (b, ()) := by
  unfold matchG1
  rw [dropOptQuote_quote dqC _ (by decide)]
  have hrun : (b ++ [dqC, rparC]).takeWhile (fun c => ¬ isQuoteC c) = b := by
    refine takeWhile_append_stop _ b dqC _ ?_ (by decide)
    intro c hc
    simp [hb.2 c hc]
  simp only [hrun]
  obtain ⟨b0, b', rfl⟩ : ∃ b0 b', b = b0 :: b' := by
    cases b with
    | nil => exact absurd rfl hb.1
    | cons a t => exact ⟨a, t, rfl⟩
  rw [List.length_cons]
  have hdrop : ((b0 :: b') ++ [dqC, rparC]).drop (b'.length + 1) = [dqC, rparC] := by
    rw [show b'.length + 1 = (b0 :: b').length from rfl, List.drop_left]
  have htake : ((b0 :: b') ++ [dqC, rparC]).take (b'.length + 1) = b0 :: b' := by
    rw [show b'.length + 1 = (b0 :: b').length from rfl, List.take_left]
  rw [searchDesc_step_some _ b'.length _ ?_]
  simp only [hdrop, htake]
  rw [show dropOptQuote [dqC, rparC] = [rparC] from dropOptQuote_quote dqC _ (by decide)]
  show (clickKont [rparC]).map (fun a => (b0 :: b', a)) = some (b0 :: b', ())
  rw [show clickKont [rparC] = some () from by
    show (if rparC = rparC then some () else none) = some ()
    rw [if_pos rfl]]
  rfl

lemma fillParse_eval (b v : List Char) (hb : okBidChars b) (hv : okValChars v) :
    fillParse (fillChars b v) = some (b, v) := by
  have hshape : fillChars b v
      = "fill(".data
        ++ (dqC :: (b ++ (dqC :: commaC :: spaceC :: dqC :: (v ++ [dqC, rparC])))) := by
    simp [fillChars]
  unfold fillParse
  rw [hshape, matchLit_append]
  show matchG1 (dqC :: (b ++ (dqC :: commaC :: spaceC :: dqC :: (v ++ [dqC, rparC]))))
      fillKont = some (b, v)
  exact matchG1_fillKont_eval b v hb hv

lemma selectParse_eval (b v : List Char) (hb : okBidChars b) (hv : okValChars v) :
    selectParse (selectChars b v) = some (b, v) := by
  have hshape : selectChars b v
      = "select_option(".data
        ++ (dqC :: (b ++ (dqC :: commaC :: spaceC :: dqC :: (v ++ [dqC, rparC])))) := by
    simp [selectChars]
  unfold selectParse
  rw [hshape, matchLit_append]
  show matchG1 (dqC :: (b ++ (dqC :: commaC :: spaceC :: dqC :: (v ++ [dqC, rparC]))))
      fillKont = some (b, v)
  exact matchG1_fillKont_eval b v hb hv

lemma clickParse_eval (b : List Char) (hb : okBidChars b) :
    clickParse (clickChars b) = some b := by
  have hshape : clickChars b = "click(".data ++ (dqC :: (b ++ [dqC, rparC])) := by
    simp [clickChars]
  unfold clickParse
  rw [hshape, matchLit_append]
  show (matchG1 (dqC :: (b ++ [dqC, rparC])) clickKont).map (fun pa => pa.1) = some b
  rw [matchG1_clickKont_eval b hb]
  rfl

lemma head?_append_left {α : Type} {l : List α} {a : α} (r : List α)
    (h : l.head? = some a) : (l ++ r).head? = some a := by
  cases l with
  | nil => simp at h
  | cons x t => injection h with h; rw [← h]; rfl

lemma clickChars_head (b : List Char) : (clickChars b).head? = some 'c' := by
  unfold clickChars
  apply head?_append_left
  apply head?_append_left
  apply head?_append_left
  decide

lemma fillChars_head (b v : List Char) : (fillChars b v).head? = some 'f' := by
  unfold fillChars
  apply head?_append_left
  apply head?_append_left
  apply head?_append_left
  apply head?_append_left
  apply head?_append_left
  decide

lemma selectChars_head (b v : List Char) : (selectChars b v).head? = some 's' := by
  unfold selectChars
  apply head?_append_left
  apply head?_append_left
  apply head?_append_left
  apply head?_append_left
  apply head?_append_left
  decide

lemma fillParse_clickChars (b : List Char) : fillParse (clickChars b) = none := by
  unfold fillParse
  rw [matchLit_none_of_head (by rw [clickChars_head]; decide) (by decide)]
  rfl

lemma selectParse_clickChars (b : List Char) : selectParse (clickChars b) = none := by
  unfold selectParse
  rw [matchLit_none_of_head (by rw [clickChars_head]; decide) (by decide)]
  rfl

lemma fillParse_selectChars (b v : List Char) :
    fillParse (selectChars b v) = none := by
  unfold fillParse
  rw [matchLit_none_of_head (by rw [selectChars_head]; decide) (by decide)]
  rfl

lemma trim_clickChars (b : List Char) : trimChars (clickChars b) = clickChars b := by
  refine @trimChars_id _ 'c' _ rfl (by decide) rparC
    ("click(".data ++ [dqC] ++ b ++ [dqC]) ?_ (by decide)
  simp [clickChars]

lemma trim_fillChars (b v : List Char) : trimChars (fillChars b v) = fillChars b v := by
  refine @trimChars_id _ 'f' _ rfl (by decide) rparC
    ("fill(".data ++ [dqC] ++ b ++ [dqC, commaC, spaceC, dqC] ++ v ++ [dqC])
    ?_ (by decide)
  simp [fillChars]

lemma trim_selectChars (b v : List Char) :
    trimChars (selectChars b v) = selectChars b v := by
  refine @trimChars_id _ 's' _ rfl (by decide) rparC
    ("select_option(".data ++ [dqC] ++ b ++ [dqC, commaC, spaceC, dqC]
      ++ v ++ [dqC])
    ?_ (by decide)
  simp [selectChars]

lemma parse_clickStr (b : List Char) (hb : okBidChars b) :
    parse_action (String.mk (clickChars b)) = ParsedAction.click (String.mk b) := by
  unfold parse_action
  rw [show (String.mk (clickChars b)).data = clickChars b from rfl]
  rw [trim_clickChars]
  simp only [fillParse_clickChars, selectParse_clickChars, clickParse_eval b hb]

lemma parse_fillStr (b v : List Char) (hb : okBidChars b) (hv : okValChars v) :
    parse_action (String.mk (fillChars b v))
      = ParsedAction.fill (String.mk b) (String.mk v) := by
  unfold parse_action
  rw [show (String.mk (fillChars b v)).data = fillChars b v from rfl]
  rw [trim_fillChars]
  simp only [fillParse_eval b v hb hv]

lemma parse_selectStr (b v : List Char) (hb : okBidChars b) (hv : okValChars v) :
    parse_action (String.mk (selectChars b v))
      = ParsedAction.selectOption (String.mk b) (String.mk v) := by
  unfold parse_action
  rw [show (String.mk (selectChars b v)).data = selectChars b v from rfl]
  rw [trim_selectChars]
  simp only [fillParse_selectChars, selectParse_eval b v hb hv]

lemma replaceDQ_id (v : List Char) (h : ∀ c ∈ v, c ≠ dqC) : replaceDQ v = v := by
  induction v with
  | nil => rfl
  | cons c t ih =>
    unfold replaceDQ at *
    show (if c = dqC then [bslashC, dqC] else [c])
        ++ (t.bind fun c => if c = dqC then [bslashC, dqC] else [c]) = c :: t
    rw [if_neg (h c (List.mem_cons_self _ _)),
      ih (fun x hx => h x (List.mem_cons_of_mem _ hx))]
    rfl

/-- C7: round-trip encoding — for every well-formed action string of the
three supported kinds (nonempty quote-free bid; nonempty quote-free
single-line value), re-encoding the parsed action with the verifier's code
generation yields the original string: `encode(decode(s)) = s`. -/
theorem c7_round_trip_encoding (s : String) (h : WfActionString s) :
    encodeAction (parse_action s) = some s := by
  rcases h with ⟨b, hb, rfl⟩ | ⟨b, v, hb, hv, rfl⟩ | ⟨b, v, hb, hv, rfl⟩
  · rw [parse_clickStr b hb]
    rfl
  · rw [parse_fillStr b v hb hv]
    show some (String.mk (fillChars (String.mk b).data (replaceDQ (String.mk v).data)))
        = some (String.mk (fillChars b v))
    rw [show (String.mk b).data = b from rfl, show (String.mk v).data = v from rfl]
    rw [replaceDQ_id v ?_]
    intro c hc hcd
    exact hv.2.1 c hc (by rw [hcd]; decide)
  · rw [parse_selectStr b v hb hv]
    show some (String.mk (selectChars (String.mk b).data (replaceDQ (String.mk v).data)))
        = some (String.mk (selectChars b v))
    rw [show (String.mk b).data = b from rfl, show (String.mk v).data = v from rfl]
    rw [replaceDQ_id v ?_]
    intro c hc hcd
    exact hv.2.1 c hc (by rw [hcd]; decide)

/-- C7 witness: the round-trip theorem applied to the concrete well-formed
string `fill("a7", "hello")`. -/
theorem c7_witness :
    WfActionString "fill(\"a7\", \"hello\")"
      ∧ encodeAction (parse_action "fill(\"a7\", \"hello\")")
          = some "fill(\"a7\", \"hello\")" := by
  have hwf : WfActionString "fill(\"a7\", \"hello\")" := by
    refine Or.inr (Or.inl ⟨"a7".data, "hello".data, ⟨by decide, by decide⟩,
      ⟨by decide, by decide, by decide⟩, ?_⟩)
    decide
  exact ⟨hwf, c7_round_trip_encoding _ hwf⟩

lemma enum_map_step (l : List Event) :
    (l.enum.map (fun ie => mkBgymStep ie.1 ie.2)).map BgymStep.step
      = List.range' 1 l.length := by
  rw [List.map_map]
  have h1 : (BgymStep.step ∘ fun ie : Nat × Event => mkBgymStep ie.1 ie.2)
      = (fun n => n + 1) ∘ Prod.fst := rfl
  rw [h1, ← List.map_map, List.enum_map_fst, List.range'_eq_map_range]
  exact (List.map_congr_left (fun n _ => Nat.add_comm 1 n)).symm

/-- C4: for every produced action list, `step` is assigned as the 1-based
output index, so the multiset of `step` values is exactly `{1, ..., N}`
(here even the stronger list-level equality with `[1, ..., N]` is proved
first and the multiset statement follows). -/
theorem c4_step_contiguity (evs : List Event) (td : TraceData) :
    (((generate_bgym_actions evs td).actions.map BgymStep.step : List Nat) : Multiset Nat)
      = ((List.range' 1 (generate_bgym_actions evs td).actions.length : List Nat) :
          Multiset Nat) := by
  have hlen : (generate_bgym_actions evs td).actions.length = evs.length := by
    simp [generate_bgym_actions]
  rw [hlen]
  exact congrArg _ (enum_map_step evs)

/-- C1 counterexample: on two `input` events whose values are "a" then ""
(field cleared), the reducer emits a fill whose value is "" — the value of
the most recent `input` event — not "a", the most recent NON-empty value
demanded by the claim. -/
theorem c1_counterexample :
    (combine_and_map_events exInputPair).map event_to_bgym_action
        = [⟨"fill", "a1", some "", none⟩]
      ∧ specLastNonEmptyValue exInputPair = some "a"
      ∧ ("" : String) ≠ "a" := by
  refine ⟨by decide, by decide, by decide⟩

/-- C9 counterexample: running the Reducer does NOT leave the input event
records unchanged — on `exInputPair` the `data` field of the second event
(the group's last `input` event) is overwritten with the concatenation
"ax". -/
theorem c9_counterexample :
    postLog exInputPair ≠ exInputPair
      ∧ (postLog exInputPair).map (fun e => e.data) = ["a", "ax"] := by
  refine ⟨by decide, by decide⟩

/-- C2 counterexample: an entry that is not an `htmlCapture` and carries no
target is NOT dropped by the Splitter — it lands in the interactions list,
contradicting the claim that events lacking both markers appear in neither
output list. -/
theorem c2_counterexample :
    (⟨"click", 0, none, ""⟩ : Entry) ∈
        (split_observation_and_event_logs [⟨"click", 0, none, ""⟩]).2
      ∧ (⟨"click", 0, none, ""⟩ : Entry).target = none
      ∧ (⟨"click", 0, none, ""⟩ : Entry).type ≠ "htmlCapture" := by
  refine ⟨?_, rfl, by decide⟩
  simp [split_observation_and_event_logs]
